import Mathlib

/-!
Verification of the wavefront extension-and-termination engine
(`wavefront_extend.c` of the WFA2 wavefront-alignment library).

The development shallow-embeds the C source: machine `int`/`wf_offset_t`
values become `Int`, byte buffers become `Nat → Nat` with an explicit
`< 256` hypothesis, in-place mutation becomes explicit state passing on
`wavefront_t` / `wavefront_aligner_t` records, and the unbounded C loops
become fuel-indexed recursions settled under an explicit hypothesis that
a mismatch (sentinel) bounds the loop.
-/

set_option maxRecDepth 4000

namespace WFA

/-! ### Offset encoding

Modelled from the spec: the offset stored at a diagonal encodes the
horizontal position reached, and a diagonal is `h - v` (glossary:
"Diagonal (k): horizontal position minus vertical position").  These
mirror the `WAVEFRONT_V/H/DIAGONAL/OFFSET` macros of the aligner's
offset header, which is not part of the extension source file. -/

/-- Vertical position on diagonal `k` at `offset` (macro `WAVEFRONT_V`). -/
def WAVEFRONT_V (k offset : Int) : Int := offset - k

/-- Horizontal position on diagonal `k` at `offset` (macro `WAVEFRONT_H`). -/
def WAVEFRONT_H (k offset : Int) : Int := offset

/-- Diagonal reaching horizontal position `h` and vertical position `v`
(macro `WAVEFRONT_DIAGONAL`). -/
def WAVEFRONT_DIAGONAL (h v : Int) : Int := h - v

/-- Offset reaching horizontal position `h` and vertical position `v`
(macro `WAVEFRONT_OFFSET`). -/
def WAVEFRONT_OFFSET (h v : Int) : Int := h

/-- Modelled from the spec: the distinguished NULL offset marking a
diagonal with no valid state (`WAVEFRONT_OFFSET_NULL`, `INT32_MIN/2`
in the aligner's offset header). -/
def WAVEFRONT_OFFSET_NULL : Int := -(2 ^ 30)

/-! ### Data model -/

/-- Alignment status written by the orchestrators.  The concrete status
codes live in a header outside the extension source; we only need that
"successful" and "heuristically dropped" are distinguishable. -/
inductive wf_status where
  | successful
  | heuristically_dropped
  | other (code : Int)
deriving DecidableEq, Repr

/-- A wavefront: populated diagonal range `[lo,hi]`, the per-diagonal
offsets (modelled as a total map on diagonals), and the diagonal on
which termination was detected. -/
structure wavefront_t where
  lo : Int
  hi : Int
  offsets : Int → Int
  k_alignment_end : Int

/-- The slice of the aligner state read and written by the extension
engine: the sentinel-padded sequences and their lengths, the ends-free
allowances and span, the (possibly modular) wavefront table, the
heuristic configuration, the custom match predicate, and the alignment
status field. -/
structure wavefront_aligner_t where
  pattern : Nat → Nat
  text : Nat → Nat
  pattern_length : Nat
  text_length : Nat
  pattern_end_free : Int
  text_end_free : Int
  span_endsfree : Bool
  memory_modular : Bool
  max_score_scope : Int
  mwavefronts : Int → Option wavefront_t
  heuristic_none : Bool
  match_funct : Int → Int → Bool
  status : wf_status

/-! ### Termination checks (`wavefront_extend_end2end_check_termination`,
`wavefront_extend_endsfree_check_termination`) -/

/-- `wavefront_extend_end2end_check_termination`: terminal iff the
alignment diagonal lies in `[lo,hi]` and its offset has reached the
alignment offset; on success records the alignment diagonal in
`k_alignment_end`.  The C function mutates the wavefront and returns a
`bool`; here it returns the pair. -/
def wavefront_extend_end2end_check_termination
    (wf_aligner : wavefront_aligner_t) (mwavefront : wavefront_t) :
    Bool × wavefront_t :=
  let pattern_length : Int := wf_aligner.pattern_length
  let text_length : Int := wf_aligner.text_length
  let alignment_k := WAVEFRONT_DIAGONAL text_length pattern_length
  if mwavefront.lo > alignment_k ∨ alignment_k > mwavefront.hi then
    (false, mwavefront) -- Not done
  else
    let offset := mwavefront.offsets alignment_k
    let alignment_offset := WAVEFRONT_OFFSET text_length pattern_length
    if offset < alignment_offset then
      (false, mwavefront) -- Not done
    else
      (true, { mwavefront with k_alignment_end := alignment_k })

/-- `wavefront_extend_endsfree_check_termination`: the C body is two
sequential `if` blocks (text aligned with pattern end-free, then
pattern aligned with text end-free); each returns `true` after
recording `k`, and control falls through otherwise. -/
def wavefront_extend_endsfree_check_termination
    (wf_aligner : wavefront_aligner_t) (mwavefront : wavefront_t)
    (offset k : Int) : Bool × wavefront_t :=
  let pattern_length : Int := wf_aligner.pattern_length
  let text_length : Int := wf_aligner.text_length
  let h_pos := WAVEFRONT_H k offset
  let v_pos := WAVEFRONT_V k offset
  if h_pos ≥ text_length ∧ pattern_length - v_pos ≤ wf_aligner.pattern_end_free then
    (true, { mwavefront with k_alignment_end := k }) -- Quit (we are done)
  else if v_pos ≥ pattern_length ∧ text_length - h_pos ≤ wf_aligner.text_end_free then
    (true, { mwavefront with k_alignment_end := k }) -- Quit (we are done)
  else
    (false, mwavefront) -- Not done

end WFA

namespace WFA

/-! ### Packed match kernel (`wavefront_extend_matches_packed_kernel`)

The C kernel loads 64-bit little-endian blocks of both sequences,
XORs them, and uses `__builtin_ctzl` on the first non-zero XOR to
locate the first differing byte.  We model a block load as the
base-256 little-endian packing of 8 consecutive bytes, and the
unbounded `while (cmp == 0)` loop as a fuel-indexed recursion (the
sentinel padding guarantees a mismatch, which bounds the loop). -/

/-- Little-endian base-256 packing of a byte list (byte 0 is least
significant), as a 64-bit load produces on the target platform. -/
def packBytes : List Nat → Nat
  | [] => 0
  | b :: bs => b + 256 * packBytes bs

/-- The 8 bytes of sequence `s` starting at position `i`. -/
def blockBytes (s : Nat → Nat) (i : Nat) : List Nat :=
  [s i, s (i + 1), s (i + 2), s (i + 3), s (i + 4), s (i + 5), s (i + 6), s (i + 7)]

/-- The 64-bit block of sequence `s` at position `i`
(`*(uint64_t*)(s + i)` on a little-endian platform). -/
def blockAt (s : Nat → Nat) (i : Nat) : Nat := packBytes (blockBytes s i)

/-- Model of `__builtin_ctzl` restricted to 64-bit inputs: count of
trailing zero bits, by repeated halving. -/
def ctzAux : Nat → Nat → Nat
  | 0, _ => 0
  | fuel + 1, x => if x % 2 = 1 then 0 else ctzAux fuel (x / 2) + 1

/-- `__builtin_ctzl` on a (non-zero) 64-bit value. -/
def ctz64 (x : Nat) : Nat := ctzAux 64 x

/-- The `while (cmp == 0)` loop of
`wavefront_extend_matches_packed_kernel`, returning the number of
matched characters added to the offset together with the index of the
last 64-bit block read (so block reads touch positions
`v .. v + 8 * last + 7` of the pattern and likewise for the text).
Fuel exhaustion returns early; all theorems assume enough fuel for the
guaranteed sentinel mismatch. -/
def packed_kernel_loop (pattern text : Nat → Nat) (v h : Nat) : Nat → Nat × Nat
  | 0 => (0, 0)
  | fuel + 1 =>
    let cmp := blockAt pattern v ^^^ blockAt text h
    if cmp = 0 then
      -- Increment offset (full block), next blocks, compare
      let r := packed_kernel_loop pattern text (v + 8) (h + 8) fuel
      (8 + r.1, r.2 + 1)
    else
      -- Count equal characters
      (ctz64 cmp / 8, 0)

/-- `wavefront_extend_matches_packed_kernel`: extend `offset` on
diagonal `k` through consecutive exact matches using the 64-bit block
comparison loop. -/
def wavefront_extend_matches_packed_kernel
    (wf_aligner : wavefront_aligner_t) (k offset : Int) (fuel : Nat) : Int :=
  offset + ((packed_kernel_loop wf_aligner.pattern wf_aligner.text
      (WAVEFRONT_V k offset).toNat (WAVEFRONT_H k offset).toNat fuel).1 : Int)

/-- Modelled from the spec (§8, kernel correctness): the naive
symbol-by-symbol comparison count, advancing through consecutive equal
symbols and stopping at the first mismatch. -/
def naive_match_count (pattern text : Nat → Nat) (v h : Nat) : Nat → Nat
  | 0 => 0
  | fuel + 1 =>
    if pattern v = text h then naive_match_count pattern text (v + 1) (h + 1) fuel + 1
    else 0

/-- Modelled from the spec (§8, kernel correctness): the offset
obtained by naive symbol-by-symbol comparison from the same starting
position. -/
def naive_extension (wf_aligner : wavefront_aligner_t) (k offset : Int) (fuel : Nat) : Int :=
  offset + ((naive_match_count wf_aligner.pattern wf_aligner.text
      (WAVEFRONT_V k offset).toNat (WAVEFRONT_H k offset).toNat fuel : Nat) : Int)

/-! ### Diagonal-range extension drivers

The C `for (k=lo;k<=hi;++k)` loops become recursions over the count
`(hi + 1 - lo).toNat` of diagonals, starting at `lo`. -/

/-- Loop of `wavefront_extend_matches_packed_end2end`: extend each
non-NULL diagonal in place, no termination check. -/
def packed_end2end_loop (A : wavefront_aligner_t) (fuel : Nat) :
    Nat → Int → (Int → Int) → (Int → Int)
  | 0, _, offsets => offsets
  | cnt + 1, k, offsets =>
    let offset := offsets k
    if offset = WAVEFRONT_OFFSET_NULL then
      packed_end2end_loop A fuel cnt (k + 1) offsets
    else
      packed_end2end_loop A fuel cnt (k + 1)
        (fun j => if j = k then wavefront_extend_matches_packed_kernel A k offset fuel
          else offsets j)

/-- `wavefront_extend_matches_packed_end2end`: extend diagonals
`lo..hi` of the wavefront (the `score` argument is unused, as in the
source). -/
def wavefront_extend_matches_packed_end2end
    (A : wavefront_aligner_t) (m : wavefront_t) (score lo hi : Int)
    (fuel : Nat) : wavefront_t :=
  { m with offsets := packed_end2end_loop A fuel (hi + 1 - lo).toNat lo m.offsets }

/-- Loop of `wavefront_extend_matches_packed_endsfree`: extend each
non-NULL diagonal, then check ends-free termination, returning early
on a terminal diagonal. -/
def packed_endsfree_loop (A : wavefront_aligner_t) (fuel : Nat) :
    Nat → Int → wavefront_t → Bool × wavefront_t
  | 0, _, m => (false, m)
  | cnt + 1, k, m =>
    let offset := m.offsets k
    if offset = WAVEFRONT_OFFSET_NULL then
      packed_endsfree_loop A fuel cnt (k + 1) m
    else
      let offset1 := wavefront_extend_matches_packed_kernel A k offset fuel
      let m1 := { m with offsets := fun j => if j = k then offset1 else m.offsets j }
      let r := wavefront_extend_endsfree_check_termination A m1 offset1 k
      if r.1 then (true, r.2) -- Quit (we are done)
      else packed_endsfree_loop A fuel cnt (k + 1) r.2

/-- `wavefront_extend_matches_packed_endsfree`. -/
def wavefront_extend_matches_packed_endsfree
    (A : wavefront_aligner_t) (m : wavefront_t) (score lo hi : Int)
    (fuel : Nat) : Bool × wavefront_t :=
  packed_endsfree_loop A fuel (hi + 1 - lo).toNat lo m

/-- The `while (match_funct(v,h,args))` loop of
`wavefront_extend_matches_custom`, as a fuel-indexed count of
consecutive predicate-matching symbol pairs. -/
def custom_match_count (f : Int → Int → Bool) : Nat → Int → Int → Nat
  | 0, _, _ => 0
  | fuel + 1, v, h =>
    if f v h then custom_match_count f fuel (v + 1) (h + 1) + 1 else 0

/-- Loop of `wavefront_extend_matches_custom`: extend each non-NULL
diagonal with the custom predicate; the ends-free termination check
fires only when `endsfree` is set. -/
def custom_loop (A : wavefront_aligner_t) (fuel : Nat) (endsfree : Bool) :
    Nat → Int → wavefront_t → Bool × wavefront_t
  | 0, _, m => (false, m)
  | cnt + 1, k, m =>
    let offset := m.offsets k
    if offset = WAVEFRONT_OFFSET_NULL then
      custom_loop A fuel endsfree cnt (k + 1) m
    else
      let v := WAVEFRONT_V k offset
      let h := WAVEFRONT_H k offset
      let offset1 := offset + (custom_match_count A.match_funct fuel v h : Int)
      let m1 := { m with offsets := fun j => if j = k then offset1 else m.offsets j }
      if endsfree then
        let r := wavefront_extend_endsfree_check_termination A m1 offset1 k
        if r.1 then (true, r.2) -- Quit (we are done)
        else custom_loop A fuel endsfree cnt (k + 1) r.2
      else
        custom_loop A fuel endsfree cnt (k + 1) m1

/-- `wavefront_extend_matches_custom`. -/
def wavefront_extend_matches_custom
    (A : wavefront_aligner_t) (m : wavefront_t) (score lo hi : Int)
    (endsfree : Bool) (fuel : Nat) : Bool × wavefront_t :=
  custom_loop A fuel endsfree (hi + 1 - lo).toNat lo m

/-! ### Extension orchestrators

The externals consumed by the orchestrators
(`wavefront_compute_num_threads`, `wavefront_compute_thread_limits`,
`wavefront_heuristic_cufoff`) live outside the extension source file;
they are modelled from the spec (§6) as explicit function parameters.
The OpenMP parallel region runs the driver on each worker's disjoint
sub-range; since the workers write disjoint diagonals of `offsets`, a
fold over the workers in index order is an admissible schedule (it
fixes only the `k_alignment_end` tie-break among racing terminal
writes, and the verdict aggregation `end_reached = true` is an OR). -/

/-- Modelled from the spec (§6): the external policies consumed by the
orchestrators — worker count from the range width, each worker's
disjoint contiguous sub-range, and the heuristic cutoff hook (which
may shrink the wavefront's diagonal range and reports whether the
alignment was dropped). -/
structure extend_externals where
  num_threads : Int → Int → Nat
  thread_limits : Nat → Nat → Int → Int → Int × Int
  heuristic_cutoff : Int → wavefront_t → (Int × Int) × Bool

/-- The shared tail of the three orchestrators: on a terminal verdict
set status successful and finish; otherwise consult the heuristic
cutoff hook (when a strategy is configured), which may drop the
alignment.  This mirrors the identical trailing code of
`wavefront_extend_end2end` / `_endsfree` / `_custom`. -/
def extend_finish (E : extend_externals) (A : wavefront_aligner_t)
    (score : Int) (end_reached : Bool) (m2 : wavefront_t) :
    Bool × wavefront_aligner_t :=
  let A1 := { A with
    mwavefronts := fun s => if s = score then some m2 else A.mwavefronts s }
  if end_reached then
    (true, { A1 with status := wf_status.successful }) -- Done
  else if A.heuristic_none then
    (false, A1) -- Not done
  else
    let c := E.heuristic_cutoff score m2
    let A2 := { A1 with
      mwavefronts := fun s => if s = score then
        some { m2 with lo := c.1.1, hi := c.1.2 } else A.mwavefronts s }
    if c.2 then (true, { A2 with status := wf_status.heuristically_dropped }) -- Done
    else (false, A2) -- Not done

/-- `wavefront_extend_end2end`. -/
def wavefront_extend_end2end (E : extend_externals)
    (A : wavefront_aligner_t) (score : Int) (fuel : Nat) :
    Bool × wavefront_aligner_t :=
  let score := if A.memory_modular then Int.tmod score A.max_score_scope else score
  match A.mwavefronts score with
  | none => (false, A)
  | some m =>
    let lo := m.lo
    let hi := m.hi
    let num_threads := E.num_threads lo hi
    let m1 :=
      if num_threads = 1 then
        wavefront_extend_matches_packed_end2end A m score lo hi fuel
      else
        (List.range num_threads).foldl
          (fun mm w =>
            let tl := E.thread_limits w num_threads lo hi
            wavefront_extend_matches_packed_end2end A mm score tl.1 tl.2 fuel) m
    let r := wavefront_extend_end2end_check_termination A m1
    extend_finish E A score r.1 r.2

/-- `wavefront_extend_endsfree`. -/
def wavefront_extend_endsfree (E : extend_externals)
    (A : wavefront_aligner_t) (score : Int) (fuel : Nat) :
    Bool × wavefront_aligner_t :=
  let score := if A.memory_modular then Int.tmod score A.max_score_scope else score
  match A.mwavefronts score with
  | none => (false, A)
  | some m =>
    let lo := m.lo
    let hi := m.hi
    let num_threads := E.num_threads lo hi
    let r :=
      if num_threads = 1 then
        wavefront_extend_matches_packed_endsfree A m score lo hi fuel
      else
        (List.range num_threads).foldl
          (fun (acc : Bool × wavefront_t) w =>
            let tl := E.thread_limits w num_threads lo hi
            let rr := wavefront_extend_matches_packed_endsfree A acc.2 score tl.1 tl.2 fuel
            (acc.1 || rr.1, rr.2)) (false, m)
    extend_finish E A score r.1 r.2

/-- `wavefront_extend_custom`: when the span is not ends-free, the
verdict of the extension phase is discarded and recomputed by the
global end-to-end termination check. -/
def wavefront_extend_custom (E : extend_externals)
    (A : wavefront_aligner_t) (score : Int) (fuel : Nat) :
    Bool × wavefront_aligner_t :=
  let score := if A.memory_modular then Int.tmod score A.max_score_scope else score
  match A.mwavefronts score with
  | none => (false, A)
  | some m =>
    let endsfree := A.span_endsfree
    let lo := m.lo
    let hi := m.hi
    let num_threads := E.num_threads lo hi
    let r :=
      if num_threads = 1 then
        wavefront_extend_matches_custom A m score lo hi endsfree fuel
      else
        (List.range num_threads).foldl
          (fun (acc : Bool × wavefront_t) w =>
            let tl := E.thread_limits w num_threads lo hi
            let rr := wavefront_extend_matches_custom A acc.2 score tl.1 tl.2 endsfree fuel
            (acc.1 || rr.1, rr.2)) (false, m)
    let r2 := if endsfree then r else wavefront_extend_end2end_check_termination A r.2
    extend_finish E A score r2.1 r2.2

/-- A concrete sentinel-padded aligner state used by closed witnesses:
pattern "AAA" padded with the byte 33, text "AAA" padded with the
byte 63, both length 3. -/
def exAligner : wavefront_aligner_t where
  pattern := fun i => if i < 3 then 65 else 33
  text := fun i => if i < 3 then 65 else 63
  pattern_length := 3
  text_length := 3
  pattern_end_free := 0
  text_end_free := 0
  span_endsfree := false
  memory_modular := false
  max_score_scope := 10
  mwavefronts := fun _ => none
  heuristic_none := true
  match_funct := fun _ _ => false
  status := wf_status.other 1

/-- Concrete externals used by witnesses: one worker, identity range
partition, a cutoff hook that keeps the range and reports a drop. -/
def exExternals : extend_externals where
  num_threads := fun _ _ => 1
  thread_limits := fun _ _ lo hi => (lo, hi)
  heuristic_cutoff := fun _ m => ((m.lo, m.hi), true)

/-- A concrete wavefront used by witnesses: diagonal range `[0,0]`,
all offsets NULL. -/
def exWavefront : wavefront_t where
  lo := 0
  hi := 0
  offsets := fun _ => WAVEFRONT_OFFSET_NULL
  k_alignment_end := -1

/-- Concrete aligner with modular (scope-4) wavefront storage and an
empty wavefront table. -/
def exAlignerMod : wavefront_aligner_t :=
  { exAligner with memory_modular := true, max_score_scope := 4 }

/-- Concrete aligner with ends-free geometry `T = 10`, `P = 7` and
vertical (pattern) end-free allowance 3. -/
def exAlignerEF : wavefront_aligner_t :=
  { exAligner with text_length := 10, pattern_length := 7, pattern_end_free := 3 }

/-- Concrete aligner holding `exWavefront` at score 0, with a
heuristic strategy configured. -/
def exAlignerH : wavefront_aligner_t :=
  { exAligner with
    heuristic_none := false
    mwavefronts := fun s => if s = 0 then some exWavefront else none }

/-- Concrete aligner holding `exWavefront` at score 0 (no heuristic
strategy). -/
def exAlignerW : wavefront_aligner_t :=
  { exAligner with
    mwavefronts := fun s => if s = 0 then some exWavefront else none }

/-! ### Parallel (multi-worker) extension model

Modelled from the spec (§5, §6): `wavefront_compute_thread_limits`
partitions `[lo,hi]` into disjoint contiguous sub-ranges, one per
worker.  Workers write disjoint diagonals of `offsets`, so a fold over
the workers in index order is an admissible schedule of the OpenMP
region (it fixes only the `k_alignment_end` tie-break; the verdict is
an OR, as in the source's `end_reached = true` assignments). -/

/-- `isRangeCover lo pieces hi` holds when `pieces` is a list of
contiguous adjacent sub-ranges whose concatenation is exactly
`[lo,hi]` (a piece may be empty: `t_hi = t_lo - 1`). -/
def isRangeCover : Int → List (Int × Int) → Int → Bool
  | lo, [], hi => decide (hi = lo - 1)
  | lo, p :: rest, hi =>
    decide (p.1 = lo) && decide (lo - 1 ≤ p.2) && isRangeCover (p.2 + 1) rest hi

/-- The N-worker run of the end-to-end driver: each worker extends its
own sub-range (order immaterial: the written diagonals are disjoint). -/
def packed_end2end_parallel (A : wavefront_aligner_t) (score : Int) (fuel : Nat)
    (pieces : List (Int × Int)) (m : wavefront_t) : wavefront_t :=
  pieces.foldl
    (fun mm p => wavefront_extend_matches_packed_end2end A mm score p.1 p.2 fuel) m

/-- The N-worker run of the ends-free driver: each worker extends its
own sub-range and the verdicts are OR-aggregated, as in the source's
parallel region. -/
def packed_endsfree_parallel (A : wavefront_aligner_t) (score : Int) (fuel : Nat)
    (pieces : List (Int × Int)) (r0 : Bool × wavefront_t) : Bool × wavefront_t :=
  pieces.foldl
    (fun (acc : Bool × wavefront_t) p =>
      let rr := wavefront_extend_matches_packed_endsfree A acc.2 score p.1 p.2 fuel
      (acc.1 || rr.1, rr.2)) r0

/-- The N-worker run of the custom-kernel driver. -/
def custom_parallel (A : wavefront_aligner_t) (score : Int) (endsfree : Bool)
    (fuel : Nat) (pieces : List (Int × Int)) (r0 : Bool × wavefront_t) :
    Bool × wavefront_t :=
  pieces.foldl
    (fun (acc : Bool × wavefront_t) p =>
      let rr := wavefront_extend_matches_custom A acc.2 score p.1 p.2 endsfree fuel
      (acc.1 || rr.1, rr.2)) r0

/-- A diagonal of `m` that the ends-free extension finds terminal:
non-NULL, and the extended offset passes the ends-free check.  (The
check's verdict does not depend on the wavefront argument.) -/
def endsfree_hits (A : wavefront_aligner_t) (fuel : Nat) (m : wavefront_t)
    (j : Int) : Prop :=
  m.offsets j ≠ WAVEFRONT_OFFSET_NULL ∧
  (wavefront_extend_endsfree_check_termination A m
    (wavefront_extend_matches_packed_kernel A j (m.offsets j) fuel) j).1 = true

/-- A diagonal of `m` that the custom extension finds terminal. -/
def custom_hits (A : wavefront_aligner_t) (fuel : Nat) (m : wavefront_t)
    (j : Int) : Prop :=
  m.offsets j ≠ WAVEFRONT_OFFSET_NULL ∧
  (wavefront_extend_endsfree_check_termination A m
    (m.offsets j + (custom_match_count A.match_funct fuel
      (WAVEFRONT_V j (m.offsets j)) (WAVEFRONT_H j (m.offsets j)) : Int)) j).1 = true

/-- Concrete ends-free aligner for the parallel counterexample:
identical 4-symbol sequences, no pattern end-free allowance, text
end-free allowance 1. -/
def exAlignerC4 : wavefront_aligner_t where
  pattern := fun i => if i < 4 then 65 else 33
  text := fun i => if i < 4 then 65 else 63
  pattern_length := 4
  text_length := 4
  pattern_end_free := 0
  text_end_free := 1
  span_endsfree := true
  memory_modular := false
  max_score_scope := 10
  mwavefronts := fun _ => none
  heuristic_none := true
  match_funct := fun _ _ => false
  status := wf_status.other 1

/-- Concrete wavefront for the parallel counterexample: diagonal −1 is
terminal after extension, diagonal 0 is NULL, diagonal 1 is non-NULL
and extendable but non-terminal. -/
def exWavefrontC4 : wavefront_t where
  lo := -1
  hi := 1
  offsets := fun k => if k = -1 then 3 else if k = 1 then 1 else WAVEFRONT_OFFSET_NULL
  k_alignment_end := -5

/-! ### Byte-packing and trailing-zero lemmas -/

theorem packBytes_eq_zero (l : List Nat) : packBytes l = 0 ↔ ∀ b ∈ l, b = 0 := by
  induction l with
  | nil => simp [packBytes]
  | cons b bs ih =>
    simp only [packBytes, List.mem_cons]
    constructor
    · intro h
      have hb : b = 0 := by omega
      have hbs : packBytes bs = 0 := by omega
      intro x hx
      rcases hx with hx | hx
      · exact hx ▸ hb
      · exact ih.mp hbs x hx
    · intro h
      have hb : b = 0 := h b (Or.inl rfl)
      have hbs : packBytes bs = 0 := ih.mpr fun x hx => h x (Or.inr hx)
      omega

theorem packBytes_lt (l : List Nat) (hl : ∀ b ∈ l, b < 256) :
    packBytes l < 256 ^ l.length := by
  induction l with
  | nil => simp [packBytes]
  | cons b bs ih =>
    have hb : b < 256 := hl b (List.mem_cons_self _ _)
    have hbs : packBytes bs < 256 ^ bs.length :=
      ih fun x hx => hl x (List.mem_cons_of_mem _ hx)
    simp only [packBytes, List.length_cons, pow_succ]
    calc b + 256 * packBytes bs < 256 + 256 * packBytes bs := by omega
      _ = 256 * (packBytes bs + 1) := by ring
      _ ≤ 256 * 256 ^ bs.length := by
          exact Nat.mul_le_mul_left _ (by omega)
      _ = 256 ^ bs.length * 256 := by ring

theorem testBit_packBytes (l : List Nat) (hl : ∀ b ∈ l, b < 256) (n : Nat) :
    (packBytes l).testBit n = (l.getD (n / 8) 0).testBit (n % 8) := by
  induction l generalizing n with
  | nil => simp [packBytes]
  | cons b bs ih =>
    have hb : b < 256 := hl b (List.mem_cons_self _ _)
    have hbs : ∀ x ∈ bs, x < 256 := fun x hx => hl x (List.mem_cons_of_mem _ hx)
    have hpack : packBytes (b :: bs) = 2 ^ 8 * packBytes bs + b := by
      simp [packBytes]; ring
    rw [hpack, Nat.testBit_mul_pow_two_add _ (by simpa using hb)]
    by_cases hn : n < 8
    · rw [if_pos hn]
      have h1 : n / 8 = 0 := Nat.div_eq_of_lt hn
      have h2 : n % 8 = n := Nat.mod_eq_of_lt hn
      rw [h1, h2]
      rfl
    · rw [if_neg hn]
      push_neg at hn
      have hsub : n = (n - 8) + 8 := by omega
      have h1 : n / 8 = (n - 8) / 8 + 1 := by
        conv_lhs => rw [hsub]
        rw [Nat.add_div_right _ (by norm_num)]
      have h2 : n % 8 = (n - 8) % 8 := by
        conv_lhs => rw [hsub]
        rw [Nat.add_mod_right]
      rw [h1, h2, List.getD_cons_succ]
      exact ih hbs (n - 8)

theorem ctzAux_spec (fuel : Nat) :
    ∀ x : Nat, x ≠ 0 → x < 2 ^ fuel →
      (∀ j < ctzAux fuel x, x.testBit j = false) ∧ x.testBit (ctzAux fuel x) = true := by
  induction fuel with
  | zero => intro x hx hlt; simp at hlt; omega
  | succ fuel ih =>
    intro x hx hlt
    by_cases hodd : x % 2 = 1
    · simp only [ctzAux, if_pos hodd]
      exact ⟨fun j hj => absurd hj (by omega), by simp [hodd]⟩
    · simp only [ctzAux, if_neg hodd]
      have hx2 : x / 2 ≠ 0 := by omega
      have hlt2 : x / 2 < 2 ^ fuel := by
        rw [pow_succ] at hlt; omega
      obtain ⟨hbelow, hat⟩ := ih (x / 2) hx2 hlt2
      constructor
      · intro j hj
        match j with
        | 0 => simp [Nat.testBit_zero]; omega
        | j + 1 =>
          rw [Nat.testBit_add_one]
          exact hbelow j (by omega)
      · rw [Nat.testBit_add_one]
        exact hat

theorem ctz64_unique (x i : Nat) (hlt : x < 2 ^ 64)
    (hat : x.testBit i = true) (hbelow : ∀ j < i, x.testBit j = false) :
    ctz64 x = i := by
  have hx : x ≠ 0 := by
    intro h; rw [h] at hat; simp at hat
  obtain ⟨hb, ha⟩ := ctzAux_spec 64 x hx hlt
  show ctzAux 64 x = i
  rcases Nat.lt_trichotomy (ctzAux 64 x) i with h | h | h
  · exact absurd ha (by rw [hbelow _ h]; simp)
  · exact h
  · exact absurd hat (by rw [hb _ h]; simp)

theorem blockBytes_getD (s : Nat → Nat) (i j : Nat) (hj : j < 8) :
    (blockBytes s i).getD j 0 = s (i + j) := by
  unfold blockBytes
  interval_cases j <;> simp

theorem blockBytes_mem_lt (s : Nat → Nat) (i : Nat) (hs : ∀ n, s n < 256) :
    ∀ b ∈ blockBytes s i, b < 256 := by
  unfold blockBytes
  intro b hb
  simp only [List.mem_cons, List.not_mem_nil, or_false] at hb
  rcases hb with h | h | h | h | h | h | h | h <;> exact h ▸ hs _

/-- Equal 64-bit blocks have equal bytes (byte values below 256 make
the little-endian packing injective). -/
theorem blockAt_byte_eq (p t : Nat → Nat) (hp : ∀ i, p i < 256) (ht : ∀ i, t i < 256)
    (v h : Nat) (hblock : blockAt p v = blockAt t h) (j : Nat) (hj : j < 8) :
    p (v + j) = t (h + j) := by
  apply Nat.eq_of_testBit_eq
  intro b
  by_cases hb : b < 8
  · have idx_div : (8 * j + b) / 8 = j := by
      rw [Nat.mul_add_div (by norm_num)]
      omega
    have idx_mod : (8 * j + b) % 8 = b := by
      rw [Nat.mul_add_mod]
      exact Nat.mod_eq_of_lt hb
    have e1 : (blockAt p v).testBit (8 * j + b) = (p (v + j)).testBit b := by
      rw [blockAt, testBit_packBytes _ (blockBytes_mem_lt p v hp), idx_div, idx_mod,
        blockBytes_getD _ _ _ hj]
    have e2 : (blockAt t h).testBit (8 * j + b) = (t (h + j)).testBit b := by
      rw [blockAt, testBit_packBytes _ (blockBytes_mem_lt t h ht), idx_div, idx_mod,
        blockBytes_getD _ _ _ hj]
    rw [← e1, ← e2, hblock]
  · push_neg at hb
    have hpow : (256 : Nat) ≤ 2 ^ b := by
      calc (256 : Nat) = 2 ^ 8 := by norm_num
        _ ≤ 2 ^ b := Nat.pow_le_pow_right (by norm_num) hb
    have h1 : (p (v + j)).testBit b = false :=
      Nat.testBit_lt_two_pow (lt_of_lt_of_le (hp _) hpow)
    have h2 : (t (h + j)).testBit b = false :=
      Nat.testBit_lt_two_pow (lt_of_lt_of_le (ht _) hpow)
    rw [h1, h2]

/-- A bit of the XOR of two blocks is the corresponding bit of the XOR
of the corresponding bytes. -/
theorem testBit_xor_blocks (p t : Nat → Nat) (hp : ∀ i, p i < 256) (ht : ∀ i, t i < 256)
    (v h m : Nat) (hm : m < 64) :
    (blockAt p v ^^^ blockAt t h).testBit m =
      (p (v + m / 8) ^^^ t (h + m / 8)).testBit (m % 8) := by
  have hdiv : m / 8 < 8 := by omega
  rw [Nat.testBit_xor, Nat.testBit_xor,
    blockAt, testBit_packBytes _ (blockBytes_mem_lt p v hp),
    blockAt, testBit_packBytes _ (blockBytes_mem_lt t h ht),
    blockBytes_getD _ _ _ hdiv, blockBytes_getD _ _ _ hdiv]

/-- A 64-bit block is below `2 ^ 64`. -/
theorem blockAt_lt (s : Nat → Nat) (hs : ∀ n, s n < 256) (i : Nat) :
    blockAt s i < 2 ^ 64 := by
  have h := packBytes_lt (blockBytes s i) (blockBytes_mem_lt s i hs)
  have hlen : (blockBytes s i).length = 8 := by rfl
  rw [hlen] at h
  calc blockAt s i < 256 ^ 8 := h
    _ = 2 ^ 64 := by norm_num

/-- Core correctness of the block-comparison loop: when the first
mismatch between the sequences (from positions `v`, `h`) is at
distance `n0` and the fuel covers it, the loop reports exactly `n0`
matched characters and reads `n0 / 8 + 1` blocks (last block index
`n0 / 8`). -/
theorem packed_kernel_loop_eq
    (p t : Nat → Nat) (hp : ∀ i, p i < 256) (ht : ∀ i, t i < 256) :
    ∀ (fuel v h n0 : Nat),
      p (v + n0) ≠ t (h + n0) →
      (∀ m < n0, p (v + m) = t (h + m)) →
      n0 / 8 < fuel →
      packed_kernel_loop p t v h fuel = (n0, n0 / 8) := by
  intro fuel
  induction fuel with
  | zero => intro v h n0 _ _ hf; omega
  | succ fuel ih =>
    intro v h n0 hm hmin hf
    by_cases hge : 8 ≤ n0
    · -- all 8 bytes of the first block pair are equal: cmp = 0, recurse
      have hblock : blockAt p v = blockAt t h := by
        unfold blockAt blockBytes
        have h0 : p v = t h := by simpa using hmin 0 (by omega)
        have h1 := hmin 1 (by omega)
        have h2 := hmin 2 (by omega)
        have h3 := hmin 3 (by omega)
        have h4 := hmin 4 (by omega)
        have h5 := hmin 5 (by omega)
        have h6 := hmin 6 (by omega)
        have h7 := hmin 7 (by omega)
        rw [h0, h1, h2, h3, h4, h5, h6, h7]
      have hdiv : n0 / 8 = (n0 - 8) / 8 + 1 := by
        conv_lhs => rw [show n0 = (n0 - 8) + 8 by omega]
        rw [Nat.add_div_right _ (by norm_num)]
      have hrec := ih (v + 8) (h + 8) (n0 - 8)
        (by rw [show v + 8 + (n0 - 8) = v + n0 by omega,
              show h + 8 + (n0 - 8) = h + n0 by omega]; exact hm)
        (by intro m hm'
            have := hmin (8 + m) (by omega)
            rwa [show v + (8 + m) = v + 8 + m by omega,
              show h + (8 + m) = h + 8 + m by omega] at this)
        (by omega)
      simp only [packed_kernel_loop]
      rw [if_pos (by rw [hblock, Nat.xor_self])]
      rw [hrec]
      refine Prod.ext ?_ ?_
      · show 8 + (n0 - 8) = n0
        omega
      · show (n0 - 8) / 8 + 1 = n0 / 8
        omega
    · -- mismatch inside the first block: cmp ≠ 0, ctz locates byte n0
      push_neg at hge
      set d := p (v + n0) ^^^ t (h + n0) with hd_def
      have hd : d ≠ 0 := fun hz => hm (Nat.xor_eq_zero.mp hz)
      have hdlt : d < 256 := by
        have : d < 2 ^ 8 := Nat.xor_lt_two_pow (by simpa using hp (v + n0)) (by simpa using ht (h + n0))
        simpa using this
      obtain ⟨hdbelow, hdat⟩ := ctzAux_spec 64 d hd (by omega)
      set c := ctzAux 64 d with hc_def
      have hc8 : c < 8 := by
        by_contra hc
        push_neg at hc
        have hpow : (256 : Nat) ≤ 2 ^ c := by
          calc (256 : Nat) = 2 ^ 8 := by norm_num
            _ ≤ 2 ^ c := Nat.pow_le_pow_right (by norm_num) hc
        have : d.testBit c = false :=
          Nat.testBit_lt_two_pow (lt_of_lt_of_le hdlt hpow)
        rw [this] at hdat
        exact absurd hdat (by simp)
      set cmp := blockAt p v ^^^ blockAt t h with hcmp_def
      have hcmp_lt : cmp < 2 ^ 64 :=
        Nat.xor_lt_two_pow (blockAt_lt p hp v) (blockAt_lt t ht h)
      have hat : cmp.testBit (8 * n0 + c) = true := by
        rw [hcmp_def, testBit_xor_blocks p t hp ht v h _ (by omega)]
        have e1 : (8 * n0 + c) / 8 = n0 := by
          rw [Nat.mul_add_div (by norm_num)]; omega
        have e2 : (8 * n0 + c) % 8 = c := by
          rw [Nat.mul_add_mod]; exact Nat.mod_eq_of_lt hc8
        rw [e1, e2]
        exact hdat
      have hbelow : ∀ m < 8 * n0 + c, cmp.testBit m = false := by
        intro m hmlt
        rw [hcmp_def, testBit_xor_blocks p t hp ht v h _ (by omega)]
        have hdle : m / 8 ≤ n0 := by
          have h1 : m ≤ 8 * n0 + 7 := by omega
          have h2 : m / 8 ≤ (8 * n0 + 7) / 8 := Nat.div_le_div_right h1
          rwa [Nat.mul_add_div (by norm_num) n0 7] at h2
        rcases Nat.lt_or_ge (m / 8) n0 with hlt | hge'
        · rw [hmin (m / 8) hlt, Nat.xor_self]
          simp
        · have heq : m / 8 = n0 := le_antisymm hdle hge'
          have hmod : m % 8 < c := by
            have := Nat.div_add_mod m 8
            omega
          rw [heq, ← hd_def]
          exact hdbelow _ hmod
      have hcmp_ne : cmp ≠ 0 := by
        intro hz
        rw [hz] at hat
        simp at hat
      have hctz : ctz64 cmp = 8 * n0 + c := ctz64_unique cmp _ hcmp_lt hat hbelow
      simp only [packed_kernel_loop]
      rw [if_neg hcmp_ne, hctz]
      refine Prod.ext ?_ ?_
      · show (8 * n0 + c) / 8 = n0
        rw [Nat.mul_add_div (by norm_num)]; omega
      · show (0 : Nat) = n0 / 8
        rw [Nat.div_eq_of_lt hge]

/-- The naive comparison stops exactly at the first mismatch. -/
theorem naive_match_count_eq (p t : Nat → Nat) :
    ∀ (fuel v h n0 : Nat),
      p (v + n0) ≠ t (h + n0) →
      (∀ m < n0, p (v + m) = t (h + m)) →
      n0 < fuel →
      naive_match_count p t v h fuel = n0 := by
  intro fuel
  induction fuel with
  | zero => intro v h n0 _ _ hf; omega
  | succ fuel ih =>
    intro v h n0 hm hmin hf
    rcases Nat.eq_zero_or_pos n0 with h0 | hpos
    · subst h0
      have : p v ≠ t h := by simpa using hm
      simp only [naive_match_count, if_neg this]
    · have heq : p v = t h := by simpa using hmin 0 hpos
      simp only [naive_match_count, if_pos heq]
      have hrec := ih (v + 1) (h + 1) (n0 - 1)
        (by rw [show v + 1 + (n0 - 1) = v + n0 by omega,
              show h + 1 + (n0 - 1) = h + n0 by omega]; exact hm)
        (by intro m hm'
            have := hmin (1 + m) (by omega)
            rwa [show v + (1 + m) = v + 1 + m by omega,
              show h + (1 + m) = h + 1 + m by omega] at this)
        (by omega)
      rw [hrec]
      omega

/-! ### Claims C3 and C7: kernel refinement and boundary safety -/

/-- C3: for every sentinel-padded sequence pair and every diagonal `k`
and starting offset, the word-parallel packed match kernel returns
exactly the offset obtained by naive symbol-by-symbol comparison from
the same starting position (the sentinel padding guarantees a mismatch
within `P + T` symbols, which the fuel bounds cover). -/
theorem packed_kernel_refines_naive
    (A : wavefront_aligner_t)
    (hp : ∀ i, A.pattern i < 256) (ht : ∀ i, A.text i < 256)
    (cp ct : Nat)
    (hppad : ∀ i, A.pattern_length ≤ i → A.pattern i = cp)
    (htpad : ∀ i, A.text_length ≤ i → A.text i = ct)
    (hpadne : cp ≠ ct)
    (k offset : Int)
    (hv : 0 ≤ WAVEFRONT_V k offset) (hh : 0 ≤ WAVEFRONT_H k offset)
    (fuel1 fuel2 : Nat)
    (hf1 : A.pattern_length + A.text_length < 8 * fuel1)
    (hf2 : A.pattern_length + A.text_length < fuel2) :
    wavefront_extend_matches_packed_kernel A k offset fuel1 =
      naive_extension A k offset fuel2 := by
  set v := (WAVEFRONT_V k offset).toNat with hv_def
  set h := (WAVEFRONT_H k offset).toNat with hh_def
  set nstar := max (A.pattern_length - v) (A.text_length - h) with hnstar
  have hmis : A.pattern (v + nstar) ≠ A.text (h + nstar) := by
    rw [hppad _ (by omega), htpad _ (by omega)]
    exact hpadne
  have hex : ∃ n, A.pattern (v + n) ≠ A.text (h + n) := ⟨nstar, hmis⟩
  set n0 := Nat.find hex with hn0
  have hm : A.pattern (v + n0) ≠ A.text (h + n0) := Nat.find_spec hex
  have hmin : ∀ m < n0, A.pattern (v + m) = A.text (h + m) := by
    intro m hmlt
    by_contra hne
    exact absurd (Nat.find_min hex hmlt) (by simp [hne])
  have hle : n0 ≤ nstar := Nat.find_min' hex hmis
  have hbound : n0 ≤ A.pattern_length + A.text_length := by omega
  unfold wavefront_extend_matches_packed_kernel naive_extension
  rw [← hv_def, ← hh_def]
  rw [packed_kernel_loop_eq A.pattern A.text hp ht fuel1 v h n0 hm hmin (by omega)]
  rw [naive_match_count_eq A.pattern A.text fuel2 v h n0 hm hmin (by omega)]

/-- Witness for `packed_kernel_refines_naive` on the concrete aligner:
diagonal 0, offset 0, a 3-symbol full match ending at the sentinel. -/
theorem packed_kernel_refines_naive_witness :
    wavefront_extend_matches_packed_kernel exAligner 0 0 1 =
      naive_extension exAligner 0 0 7 :=
  packed_kernel_refines_naive exAligner
    (by intro i; simp only [exAligner]; split <;> norm_num)
    (by intro i; simp only [exAligner]; split <;> norm_num)
    33 63
    (by intro i hi; simp only [exAligner] at hi ⊢; rw [if_neg (by omega)])
    (by intro i hi; simp only [exAligner] at hi ⊢; rw [if_neg (by omega)])
    (by decide)
    0 0 (by decide) (by decide)
    1 7 (by decide) (by decide)

/-- C7: starting from a position where one sequence is already fully
consumed (`h = T` or `v = P`), extension does not advance the offset
(the sentinels mismatch immediately) and only the first 64-bit block
of each sequence is read, which stays within any sentinel padding of
at least 8 bytes. -/
theorem packed_kernel_boundary_safety
    (A : wavefront_aligner_t)
    (hp : ∀ i, A.pattern i < 256) (ht : ∀ i, A.text i < 256)
    (cp ct : Nat)
    (hppad : ∀ i, A.pattern_length ≤ i → A.pattern i = cp)
    (htpad : ∀ i, A.text_length ≤ i → A.text i = ct)
    (hpadne : cp ≠ ct)
    (hcp : ∀ i, i < A.text_length → cp ≠ A.text i)
    (hct : ∀ j, j < A.pattern_length → ct ≠ A.pattern j)
    (k offset : Int)
    (hv0 : 0 ≤ WAVEFRONT_V k offset) (hh0 : 0 ≤ WAVEFRONT_H k offset)
    (hvle : WAVEFRONT_V k offset ≤ (A.pattern_length : Int))
    (hhle : WAVEFRONT_H k offset ≤ (A.text_length : Int))
    (hconsumed : WAVEFRONT_H k offset = (A.text_length : Int) ∨
      WAVEFRONT_V k offset = (A.pattern_length : Int))
    (fuel : Nat) (hfuel : 1 ≤ fuel) :
    wavefront_extend_matches_packed_kernel A k offset fuel = offset ∧
    (packed_kernel_loop A.pattern A.text (WAVEFRONT_V k offset).toNat
        (WAVEFRONT_H k offset).toNat fuel).2 = 0 ∧
    (∀ padding : Nat, 8 ≤ padding →
      (WAVEFRONT_V k offset).toNat +
          8 * (packed_kernel_loop A.pattern A.text (WAVEFRONT_V k offset).toNat
            (WAVEFRONT_H k offset).toNat fuel).2 + 7 <
        A.pattern_length + padding ∧
      (WAVEFRONT_H k offset).toNat +
          8 * (packed_kernel_loop A.pattern A.text (WAVEFRONT_V k offset).toNat
            (WAVEFRONT_H k offset).toNat fuel).2 + 7 <
        A.text_length + padding) := by
  set v := (WAVEFRONT_V k offset).toNat with hv_def
  set h := (WAVEFRONT_H k offset).toNat with hh_def
  have hvlen : v ≤ A.pattern_length := by omega
  have hhlen : h ≤ A.text_length := by omega
  have hm : A.pattern (v + 0) ≠ A.text (h + 0) := by
    simp only [Nat.add_zero]
    rcases hconsumed with hc | hc
    · have hheq : h = A.text_length := by omega
      rw [htpad h (by omega)]
      rcases Nat.lt_or_ge v A.pattern_length with hvl | hvl
      · exact fun e => hct v hvl e.symm
      · rw [hppad v hvl]; exact hpadne
    · have hveq : v = A.pattern_length := by omega
      rw [hppad v (by omega)]
      rcases Nat.lt_or_ge h A.text_length with hhl | hhl
      · exact hcp h hhl
      · rw [htpad h hhl]; exact hpadne
  have hloop : packed_kernel_loop A.pattern A.text v h fuel = (0, 0) := by
    have := packed_kernel_loop_eq A.pattern A.text hp ht fuel v h 0 hm
      (by intro m hm'; omega) (by omega)
    simpa using this
  refine ⟨?_, ?_, ?_⟩
  · unfold wavefront_extend_matches_packed_kernel
    rw [← hv_def, ← hh_def, hloop]
    simp
  · rw [hloop]
  · intro padding hpad
    rw [hloop]
    constructor <;> simp <;> omega

/-- Witness for `packed_kernel_boundary_safety`: both sequences fully
consumed (`h = v = 3`) on diagonal 0 of the concrete aligner. -/
theorem packed_kernel_boundary_safety_witness :
    wavefront_extend_matches_packed_kernel exAligner 0 3 1 = 3 ∧
    (packed_kernel_loop exAligner.pattern exAligner.text (WAVEFRONT_V 0 3).toNat
        (WAVEFRONT_H 0 3).toNat 1).2 = 0 ∧
    ((WAVEFRONT_V 0 3).toNat +
          8 * (packed_kernel_loop exAligner.pattern exAligner.text (WAVEFRONT_V 0 3).toNat
            (WAVEFRONT_H 0 3).toNat 1).2 + 7 <
        exAligner.pattern_length + 8 ∧
      (WAVEFRONT_H 0 3).toNat +
          8 * (packed_kernel_loop exAligner.pattern exAligner.text (WAVEFRONT_V 0 3).toNat
            (WAVEFRONT_H 0 3).toNat 1).2 + 7 <
        exAligner.text_length + 8) :=
  have hmain := packed_kernel_boundary_safety exAligner
    (by intro i; simp only [exAligner]; split <;> norm_num)
    (by intro i; simp only [exAligner]; split <;> norm_num)
    33 63
    (by intro i hi; simp only [exAligner] at hi ⊢; rw [if_neg (by omega)])
    (by intro i hi; simp only [exAligner] at hi ⊢; rw [if_neg (by omega)])
    (by decide)
    (by intro i hi; simp only [exAligner] at hi ⊢; rw [if_pos hi]; norm_num)
    (by intro j hj; simp only [exAligner] at hj ⊢; rw [if_pos hj]; norm_num)
    0 3 (by decide) (by decide) (by decide) (by decide)
    (Or.inl (by decide))
    1 (by decide)
  ⟨hmain.1, hmain.2.1, hmain.2.2 8 (by norm_num)⟩

/-- Pointwise behaviour of the end-to-end driver loop. -/
theorem packed_end2end_loop_spec (A : wavefront_aligner_t) (fuel : Nat) :
    ∀ (cnt : Nat) (lo : Int) (offsets : Int → Int) (k : Int),
      packed_end2end_loop A fuel cnt lo offsets k =
        if lo ≤ k ∧ k < lo + cnt ∧ offsets k ≠ WAVEFRONT_OFFSET_NULL
        then wavefront_extend_matches_packed_kernel A k (offsets k) fuel
        else offsets k := by
  intro cnt
  induction cnt with
  | zero =>
    intro lo offsets k
    rw [if_neg (by rintro ⟨h1, h2, -⟩; omega)]
    rfl
  | succ cnt ih =>
    intro lo offsets k
    simp only [packed_end2end_loop]
    by_cases hnull : offsets lo = WAVEFRONT_OFFSET_NULL
    · rw [if_pos hnull, ih (lo + 1) offsets k]
      by_cases hk : k = lo
      · subst hk
        rw [if_neg (by rintro ⟨h1, -, -⟩; omega),
          if_neg (by rintro ⟨-, -, hc⟩; exact hc hnull)]
      · by_cases h1 : lo + 1 ≤ k ∧ k < lo + 1 + (cnt : Int) ∧
            offsets k ≠ WAVEFRONT_OFFSET_NULL
        · rw [if_pos h1, if_pos ⟨by omega, by omega, h1.2.2⟩]
        · rw [if_neg h1, if_neg (by rintro ⟨a, b, c⟩; exact h1 ⟨by omega, by omega, c⟩)]
    · rw [if_neg hnull, ih (lo + 1) _ k]
      by_cases hk : k = lo
      · subst hk
        rw [if_pos rfl]
        rw [if_neg (by rintro ⟨h1, -, -⟩; omega),
          if_pos ⟨le_refl _, by omega, hnull⟩]
      · simp only [if_neg hk]
        by_cases h1 : lo + 1 ≤ k ∧ k < lo + 1 + (cnt : Int) ∧
            offsets k ≠ WAVEFRONT_OFFSET_NULL
        · rw [if_pos h1, if_pos ⟨by omega, by omega, h1.2.2⟩]
        · rw [if_neg h1, if_neg (by rintro ⟨a, b, c⟩; exact h1 ⟨by omega, by omega, c⟩)]

/-- C6: the end-to-end driver applies the packed kernel to every
diagonal of `[lo,hi]` whose offset is non-NULL, leaves NULL (and
out-of-range) diagonals unchanged, and performs no per-diagonal
termination check — it returns no verdict and never touches
`k_alignment_end` (or `lo`/`hi`). -/
theorem packed_end2end_driver_correct
    (A : wavefront_aligner_t) (m : wavefront_t) (score lo hi : Int) (fuel : Nat) :
    let m1 := wavefront_extend_matches_packed_end2end A m score lo hi fuel
    (∀ k : Int,
      m1.offsets k =
        if lo ≤ k ∧ k ≤ hi ∧ m.offsets k ≠ WAVEFRONT_OFFSET_NULL
        then wavefront_extend_matches_packed_kernel A k (m.offsets k) fuel
        else m.offsets k) ∧
    m1.lo = m.lo ∧ m1.hi = m.hi ∧ m1.k_alignment_end = m.k_alignment_end := by
  refine ⟨?_, rfl, rfl, rfl⟩
  intro k
  show packed_end2end_loop A fuel (hi + 1 - lo).toNat lo m.offsets k = _
  rw [packed_end2end_loop_spec]
  by_cases hin : lo ≤ k ∧ k ≤ hi ∧ m.offsets k ≠ WAVEFRONT_OFFSET_NULL
  · rw [if_pos ⟨hin.1, by omega, hin.2.2⟩, if_pos hin]
  · rw [if_neg (by rintro ⟨a, b, c⟩; exact hin ⟨a, by omega, c⟩), if_neg hin]

/-! ### Helper lemmas about the orchestrator components -/

/-- The end-to-end check leaves the wavefront unchanged on a negative
verdict. -/
theorem end2end_check_false_snd (A : wavefront_aligner_t) (m : wavefront_t)
    (h : (wavefront_extend_end2end_check_termination A m).1 = false) :
    (wavefront_extend_end2end_check_termination A m).2 = m := by
  unfold wavefront_extend_end2end_check_termination at h ⊢
  by_cases h1 : m.lo > WAVEFRONT_DIAGONAL (A.text_length : Int) (A.pattern_length : Int) ∨
      WAVEFRONT_DIAGONAL (A.text_length : Int) (A.pattern_length : Int) > m.hi
  · simp only [if_pos h1]
  · simp only [if_neg h1] at h ⊢
    by_cases h2 : m.offsets (WAVEFRONT_DIAGONAL (A.text_length : Int) (A.pattern_length : Int)) <
        WAVEFRONT_OFFSET (A.text_length : Int) (A.pattern_length : Int)
    · simp only [if_pos h2]
    · simp only [if_neg h2] at h
      exact absurd h (by simp)

/-- The end-to-end driver never touches `k_alignment_end`. -/
theorem packed_end2end_keeps_kend (A : wavefront_aligner_t) (m : wavefront_t)
    (score lo hi : Int) (fuel : Nat) :
    (wavefront_extend_matches_packed_end2end A m score lo hi fuel).k_alignment_end =
      m.k_alignment_end := rfl

/-- Folding the end-to-end driver over worker sub-ranges never touches
`k_alignment_end`. -/
theorem foldl_packed_end2end_keeps_kend (A : wavefront_aligner_t) (score : Int)
    (fuel : Nat) (E : extend_externals) (nt : Nat) (lo hi : Int) :
    ∀ (l : List Nat) (mm : wavefront_t),
      (l.foldl (fun mm w =>
        let tl := E.thread_limits w nt lo hi
        wavefront_extend_matches_packed_end2end A mm score tl.1 tl.2 fuel) mm).k_alignment_end
        = mm.k_alignment_end := by
  intro l
  induction l with
  | nil => intro mm; rfl
  | cons w ws ih =>
    intro mm
    rw [List.foldl_cons, ih]
    rfl

/-- The custom-kernel loop with the ends-free flag cleared performs no
termination check: it always returns `false` and preserves
`k_alignment_end`, `lo` and `hi`. -/
theorem custom_loop_nonendsfree (A : wavefront_aligner_t) (fuel : Nat) :
    ∀ (cnt : Nat) (k : Int) (m : wavefront_t),
      (custom_loop A fuel false cnt k m).1 = false ∧
      (custom_loop A fuel false cnt k m).2.k_alignment_end = m.k_alignment_end ∧
      (custom_loop A fuel false cnt k m).2.lo = m.lo ∧
      (custom_loop A fuel false cnt k m).2.hi = m.hi := by
  intro cnt
  induction cnt with
  | zero => intro k m; exact ⟨rfl, rfl, rfl, rfl⟩
  | succ cnt ih =>
    intro k m
    simp only [custom_loop, Bool.false_eq_true, if_false]
    by_cases hnull : m.offsets k = WAVEFRONT_OFFSET_NULL
    · rw [if_pos hnull]
      exact ih _ _
    · rw [if_neg hnull]
      exact ⟨(ih _ _).1, (ih _ _).2.1.trans rfl, (ih _ _).2.2.1.trans rfl,
        (ih _ _).2.2.2.trans rfl⟩

/-- The orchestrators depend on the score only through its (possibly
modular) reduction. -/
theorem extend_end2end_score_congr (E : extend_externals) (A : wavefront_aligner_t)
    (fuel : Nat) (s s' : Int)
    (h : (if A.memory_modular then Int.tmod s A.max_score_scope else s) =
      (if A.memory_modular then Int.tmod s' A.max_score_scope else s')) :
    wavefront_extend_end2end E A s fuel = wavefront_extend_end2end E A s' fuel := by
  unfold wavefront_extend_end2end
  rw [h]

theorem extend_endsfree_score_congr (E : extend_externals) (A : wavefront_aligner_t)
    (fuel : Nat) (s s' : Int)
    (h : (if A.memory_modular then Int.tmod s A.max_score_scope else s) =
      (if A.memory_modular then Int.tmod s' A.max_score_scope else s')) :
    wavefront_extend_endsfree E A s fuel = wavefront_extend_endsfree E A s' fuel := by
  unfold wavefront_extend_endsfree
  rw [h]

theorem extend_custom_score_congr (E : extend_externals) (A : wavefront_aligner_t)
    (fuel : Nat) (s s' : Int)
    (h : (if A.memory_modular then Int.tmod s A.max_score_scope else s) =
      (if A.memory_modular then Int.tmod s' A.max_score_scope else s')) :
    wavefront_extend_custom E A s fuel = wavefront_extend_custom E A s' fuel := by
  unfold wavefront_extend_custom
  rw [h]

/-! ### Claims C1, C2, C10: the termination detectors -/

/-- C1: the end-to-end termination check returns true iff the alignment
diagonal `T - P` lies within `[lo,hi]` of the wavefront and the offset
stored there is at least the alignment offset (full consumption of both
sequences); on success it records that diagonal in `k_alignment_end`,
otherwise it returns false leaving the wavefront unchanged. -/
theorem end2end_check_termination_correct
    (A : wavefront_aligner_t) (m : wavefront_t) :
    let ak := WAVEFRONT_DIAGONAL (A.text_length : Int) (A.pattern_length : Int)
    let r := wavefront_extend_end2end_check_termination A m
    (r.1 = true ↔
      (m.lo ≤ ak ∧ ak ≤ m.hi ∧
        WAVEFRONT_OFFSET (A.text_length : Int) (A.pattern_length : Int) ≤ m.offsets ak)) ∧
    r.2 = (if r.1 then { m with k_alignment_end := ak } else m) := by
  intro ak r
  show (r.1 = true ↔ _) ∧ _
  unfold_let r
  unfold wavefront_extend_end2end_check_termination
  by_cases h1 : m.lo > ak ∨ ak > m.hi
  · simp only [if_pos h1]
    constructor
    · constructor
      · intro h; exact absurd h (by simp)
      · intro ⟨hlo, hhi, _⟩; omega
    · simp
  · simp only [if_neg h1]
    push_neg at h1
    by_cases h2 : m.offsets ak < WAVEFRONT_OFFSET (A.text_length : Int) (A.pattern_length : Int)
    · simp only [if_pos h2]
      constructor
      · constructor
        · intro h; exact absurd h (by simp)
        · intro ⟨_, _, hge⟩; omega
      · simp
    · simp only [if_neg h2]
      constructor
      · simp only [true_iff]
        exact ⟨h1.1, h1.2, by omega⟩
      · simp

/-- C2: the ends-free termination check returns true iff (a) `h_pos`
has consumed the text and the pattern leftover is within
`pattern_end_free`, or (b) `v_pos` has consumed the pattern and the
text leftover is within `text_end_free`; on success it records `k`.
In particular with `T = 10`, `P = 7`, vertical allowance 3: `h_pos = 10,
v_pos = 7` is terminal, `v_pos = 6` is terminal, `v_pos = 3` is not. -/
theorem endsfree_check_termination_correct
    (A : wavefront_aligner_t) (m : wavefront_t) (offset k : Int) :
    let r := wavefront_extend_endsfree_check_termination A m offset k
    let h_pos := WAVEFRONT_H k offset
    let v_pos := WAVEFRONT_V k offset
    ((r.1 = true ↔
      ((h_pos ≥ (A.text_length : Int) ∧
          (A.pattern_length : Int) - v_pos ≤ A.pattern_end_free) ∨
        (v_pos ≥ (A.pattern_length : Int) ∧
          (A.text_length : Int) - h_pos ≤ A.text_end_free))) ∧
      r.2 = (if r.1 then { m with k_alignment_end := k } else m)) ∧
    (∀ B : wavefront_aligner_t, B.text_length = 10 → B.pattern_length = 7 →
      B.pattern_end_free = 3 →
      (wavefront_extend_endsfree_check_termination B m 10 3).1 = true ∧
      (wavefront_extend_endsfree_check_termination B m 10 4).1 = true ∧
      (wavefront_extend_endsfree_check_termination B m 10 7).1 = false) := by
  constructor
  · unfold wavefront_extend_endsfree_check_termination
    by_cases h1 : WAVEFRONT_H k offset ≥ (A.text_length : Int) ∧
        (A.pattern_length : Int) - WAVEFRONT_V k offset ≤ A.pattern_end_free
    · simp only [if_pos h1]
      exact ⟨by simp [h1], by simp⟩
    · simp only [if_neg h1]
      by_cases h2 : WAVEFRONT_V k offset ≥ (A.pattern_length : Int) ∧
          (A.text_length : Int) - WAVEFRONT_H k offset ≤ A.text_end_free
      · simp only [if_pos h2]
        exact ⟨by simp [h1, h2], by simp⟩
      · simp only [if_neg h2]
        constructor
        · simp only [Bool.false_eq_true, false_iff]
          rintro (h | h)
          · exact h1 h
          · exact h2 h
        · simp
  · intro B hT hP hF
    unfold wavefront_extend_endsfree_check_termination
    rw [hT, hP, hF]
    refine ⟨?_, ?_, ?_⟩
    · norm_num [WAVEFRONT_H, WAVEFRONT_V]
    · norm_num [WAVEFRONT_H, WAVEFRONT_V]
    · norm_num [WAVEFRONT_H, WAVEFRONT_V]

/-- C10: when the offset stored at the alignment diagonal is the
distinguished NULL offset, the end-to-end termination check returns
false and leaves the wavefront (hence `k_alignment_end`) unchanged:
the NULL marker is strictly below the alignment offset for every
non-negative text length, so an in-range but unpopulated alignment
diagonal never triggers termination. -/
theorem end2end_check_termination_null_offset
    (A : wavefront_aligner_t) (m : wavefront_t)
    (hnull : m.offsets (WAVEFRONT_DIAGONAL (A.text_length : Int) (A.pattern_length : Int)) =
      WAVEFRONT_OFFSET_NULL) :
    WAVEFRONT_OFFSET_NULL < WAVEFRONT_OFFSET (A.text_length : Int) (A.pattern_length : Int) ∧
    wavefront_extend_end2end_check_termination A m = (false, m) := by
  have hlt : WAVEFRONT_OFFSET_NULL <
      WAVEFRONT_OFFSET (A.text_length : Int) (A.pattern_length : Int) := by
    unfold WAVEFRONT_OFFSET_NULL WAVEFRONT_OFFSET
    have : (0 : Int) ≤ (A.text_length : Int) := Int.ofNat_nonneg _
    omega
  refine ⟨hlt, ?_⟩
  unfold wavefront_extend_end2end_check_termination
  by_cases h1 : m.lo > WAVEFRONT_DIAGONAL (A.text_length : Int) (A.pattern_length : Int) ∨
      WAVEFRONT_DIAGONAL (A.text_length : Int) (A.pattern_length : Int) > m.hi
  · simp only [if_pos h1]
  · simp only [if_neg h1]
    rw [if_pos (by rw [hnull]; exact hlt)]

/-- Witness for `end2end_check_termination_null_offset` at a concrete
aligner state. -/
theorem end2end_check_termination_null_offset_witness :
    WAVEFRONT_OFFSET_NULL < WAVEFRONT_OFFSET ((5 : Nat) : Int) ((5 : Nat) : Int) ∧
    wavefront_extend_end2end_check_termination
      { pattern := fun _ => 0, text := fun _ => 0, pattern_length := 5, text_length := 5,
        pattern_end_free := 0, text_end_free := 0, span_endsfree := false,
        memory_modular := false, max_score_scope := 10, mwavefronts := fun _ => none,
        heuristic_none := true, match_funct := fun _ _ => false, status := wf_status.other 1 }
      { lo := -1, hi := 1, offsets := fun _ => WAVEFRONT_OFFSET_NULL, k_alignment_end := 0 } =
    (false,
      { lo := -1, hi := 1, offsets := fun _ => WAVEFRONT_OFFSET_NULL, k_alignment_end := 0 }) :=
  end2end_check_termination_null_offset
    { pattern := fun _ => 0, text := fun _ => 0, pattern_length := 5, text_length := 5,
      pattern_end_free := 0, text_end_free := 0, span_endsfree := false,
      memory_modular := false, max_score_scope := 10, mwavefronts := fun _ => none,
      heuristic_none := true, match_funct := fun _ _ => false, status := wf_status.other 1 }
    { lo := -1, hi := 1, offsets := fun _ => WAVEFRONT_OFFSET_NULL, k_alignment_end := 0 }
    rfl


/-! ### Orchestrator unfolding lemmas -/

/-- When the (reduced) score has a wavefront, `wavefront_extend_end2end`
is the extension dispatch followed by the global end-to-end check and
the shared finishing phase. -/
theorem extend_end2end_eq_finish (E : extend_externals) (A : wavefront_aligner_t)
    (score : Int) (fuel : Nat) (s1 : Int)
    (hs1 : s1 = if A.memory_modular then Int.tmod score A.max_score_scope else score)
    (m : wavefront_t) (hm : A.mwavefronts s1 = some m) :
    wavefront_extend_end2end E A score fuel =
      extend_finish E A s1
        (wavefront_extend_end2end_check_termination A
          (if E.num_threads m.lo m.hi = 1
           then wavefront_extend_matches_packed_end2end A m s1 m.lo m.hi fuel
           else (List.range (E.num_threads m.lo m.hi)).foldl
             (fun mm w =>
               let tl := E.thread_limits w (E.num_threads m.lo m.hi) m.lo m.hi
               wavefront_extend_matches_packed_end2end A mm s1 tl.1 tl.2 fuel) m)).1
        (wavefront_extend_end2end_check_termination A
          (if E.num_threads m.lo m.hi = 1
           then wavefront_extend_matches_packed_end2end A m s1 m.lo m.hi fuel
           else (List.range (E.num_threads m.lo m.hi)).foldl
             (fun mm w =>
               let tl := E.thread_limits w (E.num_threads m.lo m.hi) m.lo m.hi
               wavefront_extend_matches_packed_end2end A mm s1 tl.1 tl.2 fuel) m)).2 := by
  subst hs1
  simp only [wavefront_extend_end2end]
  rw [hm]

/-- Analogue of `extend_end2end_eq_finish` for the ends-free
orchestrator. -/
theorem extend_endsfree_eq_finish (E : extend_externals) (A : wavefront_aligner_t)
    (score : Int) (fuel : Nat) (s1 : Int)
    (hs1 : s1 = if A.memory_modular then Int.tmod score A.max_score_scope else score)
    (m : wavefront_t) (hm : A.mwavefronts s1 = some m) :
    wavefront_extend_endsfree E A score fuel =
      extend_finish E A s1
        (if E.num_threads m.lo m.hi = 1
         then wavefront_extend_matches_packed_endsfree A m s1 m.lo m.hi fuel
         else (List.range (E.num_threads m.lo m.hi)).foldl
           (fun (acc : Bool × wavefront_t) w =>
             let tl := E.thread_limits w (E.num_threads m.lo m.hi) m.lo m.hi
             let rr := wavefront_extend_matches_packed_endsfree A acc.2 s1 tl.1 tl.2 fuel
             (acc.1 || rr.1, rr.2)) (false, m)).1
        (if E.num_threads m.lo m.hi = 1
         then wavefront_extend_matches_packed_endsfree A m s1 m.lo m.hi fuel
         else (List.range (E.num_threads m.lo m.hi)).foldl
           (fun (acc : Bool × wavefront_t) w =>
             let tl := E.thread_limits w (E.num_threads m.lo m.hi) m.lo m.hi
             let rr := wavefront_extend_matches_packed_endsfree A acc.2 s1 tl.1 tl.2 fuel
             (acc.1 || rr.1, rr.2)) (false, m)).2 := by
  subst hs1
  simp only [wavefront_extend_endsfree]
  rw [hm]

/-- Analogue of `extend_end2end_eq_finish` for the custom-kernel
orchestrator: when the span is not ends-free the verdict of the
extension phase is replaced by the global end-to-end check. -/
theorem extend_custom_eq_finish (E : extend_externals) (A : wavefront_aligner_t)
    (score : Int) (fuel : Nat) (s1 : Int)
    (hs1 : s1 = if A.memory_modular then Int.tmod score A.max_score_scope else score)
    (m : wavefront_t) (hm : A.mwavefronts s1 = some m)
    (r : Bool × wavefront_t)
    (hr : r = if E.num_threads m.lo m.hi = 1
      then wavefront_extend_matches_custom A m s1 m.lo m.hi A.span_endsfree fuel
      else (List.range (E.num_threads m.lo m.hi)).foldl
        (fun (acc : Bool × wavefront_t) w =>
          let tl := E.thread_limits w (E.num_threads m.lo m.hi) m.lo m.hi
          let rr := wavefront_extend_matches_custom A acc.2 s1 tl.1 tl.2
            A.span_endsfree fuel
          (acc.1 || rr.1, rr.2)) (false, m)) :
    wavefront_extend_custom E A score fuel =
      extend_finish E A s1
        (if A.span_endsfree then r
         else wavefront_extend_end2end_check_termination A r.2).1
        (if A.span_endsfree then r
         else wavefront_extend_end2end_check_termination A r.2).2 := by
  subst hs1
  subst hr
  simp only [wavefront_extend_custom]
  rw [hm]

/-! ### Claims C8, C9, C5: the orchestrators -/

/-- C8: each of the three orchestrators first reduces the score modulo
`max_score_scope` when modular storage is active, then looks up the
wavefront at the reduced index, and returns false ("not done") when it
is absent; in particular a call at score `M + 2` indexes the same slot
as a call at score 2 and behaves identically. -/
theorem orchestrators_modular_score
    (E : extend_externals) (A : wavefront_aligner_t) (score : Int) (fuel : Nat)
    (hmod : A.memory_modular = true) (hpos : 0 < A.max_score_scope) (hs : 0 ≤ score) :
    (A.mwavefronts (score % A.max_score_scope) = none →
      wavefront_extend_end2end E A score fuel = (false, A) ∧
      wavefront_extend_endsfree E A score fuel = (false, A) ∧
      wavefront_extend_custom E A score fuel = (false, A)) ∧
    (wavefront_extend_end2end E A (A.max_score_scope + 2) fuel =
        wavefront_extend_end2end E A 2 fuel ∧
      wavefront_extend_endsfree E A (A.max_score_scope + 2) fuel =
        wavefront_extend_endsfree E A 2 fuel ∧
      wavefront_extend_custom E A (A.max_score_scope + 2) fuel =
        wavefront_extend_custom E A 2 fuel) := by
  have hred : (if A.memory_modular then Int.tmod score A.max_score_scope else score) =
      score % A.max_score_scope := by
    rw [hmod, if_pos rfl, Int.tmod_eq_emod hs (le_of_lt hpos)]
  have hkey : (if A.memory_modular then Int.tmod (A.max_score_scope + 2) A.max_score_scope
        else A.max_score_scope + 2) =
      (if A.memory_modular then Int.tmod 2 A.max_score_scope else 2) := by
    rw [hmod, if_pos rfl, if_pos rfl,
      Int.tmod_eq_emod (by omega) (le_of_lt hpos),
      Int.tmod_eq_emod (by omega) (le_of_lt hpos)]
    conv_lhs => rw [show A.max_score_scope + 2 = 2 + A.max_score_scope * 1 by ring]
    rw [Int.add_mul_emod_self_left]
  constructor
  · intro habsent
    refine ⟨?_, ?_, ?_⟩
    · simp only [wavefront_extend_end2end]
      rw [hred, habsent]
    · simp only [wavefront_extend_endsfree]
      rw [hred, habsent]
    · simp only [wavefront_extend_custom]
      rw [hred, habsent]
  · exact ⟨extend_end2end_score_congr E A fuel _ _ hkey,
      extend_endsfree_score_congr E A fuel _ _ hkey,
      extend_custom_score_congr E A fuel _ _ hkey⟩

/-- Witness for `orchestrators_modular_score`: scope 4, an empty
wavefront table, scores 2 and 4 + 2. -/
theorem orchestrators_modular_score_witness :
    (wavefront_extend_end2end exExternals exAlignerMod 2 0 = (false, exAlignerMod) ∧
      wavefront_extend_endsfree exExternals exAlignerMod 2 0 = (false, exAlignerMod) ∧
      wavefront_extend_custom exExternals exAlignerMod 2 0 = (false, exAlignerMod)) ∧
    wavefront_extend_end2end exExternals exAlignerMod (exAlignerMod.max_score_scope + 2) 0 =
      wavefront_extend_end2end exExternals exAlignerMod 2 0 :=
  have h := orchestrators_modular_score exExternals exAlignerMod 2 0 rfl
    (by norm_num [exAlignerMod, exAligner]) (by norm_num)
  ⟨h.1 rfl, h.2.1⟩

/-- C9: when the extension of a fetched wavefront is not terminal, the
end-to-end orchestrator behaves as follows: with no heuristic strategy
it returns false; with a strategy configured it returns
`(true, status heuristically dropped)` exactly when the cutoff hook
reports a drop, and false otherwise; `k_alignment_end` is never set on
this path (the extended wavefront keeps the original value). -/
theorem end2end_heuristic_interplay
    (E : extend_externals) (A : wavefront_aligner_t) (score : Int) (fuel : Nat)
    (s1 : Int)
    (hs1 : s1 = if A.memory_modular then Int.tmod score A.max_score_scope else score)
    (m : wavefront_t) (hm : A.mwavefronts s1 = some m)
    (m1 : wavefront_t)
    (hm1 : m1 = if E.num_threads m.lo m.hi = 1
      then wavefront_extend_matches_packed_end2end A m s1 m.lo m.hi fuel
      else (List.range (E.num_threads m.lo m.hi)).foldl
        (fun mm w =>
          let tl := E.thread_limits w (E.num_threads m.lo m.hi) m.lo m.hi
          wavefront_extend_matches_packed_end2end A mm s1 tl.1 tl.2 fuel) m)
    (hterm : (wavefront_extend_end2end_check_termination A m1).1 = false) :
    wavefront_extend_end2end E A score fuel =
      (if A.heuristic_none then
        (false, { A with
          mwavefronts := fun s => if s = s1 then some m1 else A.mwavefronts s })
       else if (E.heuristic_cutoff s1 m1).2 then
        (true, { A with
          mwavefronts := fun s => if s = s1 then
            some { m1 with
              lo := (E.heuristic_cutoff s1 m1).1.1
              hi := (E.heuristic_cutoff s1 m1).1.2 }
            else A.mwavefronts s
          status := wf_status.heuristically_dropped })
       else
        (false, { A with
          mwavefronts := fun s => if s = s1 then
            some { m1 with
              lo := (E.heuristic_cutoff s1 m1).1.1
              hi := (E.heuristic_cutoff s1 m1).1.2 }
            else A.mwavefronts s })) ∧
    m1.k_alignment_end = m.k_alignment_end := by
  have hsnd := end2end_check_false_snd A m1 hterm
  constructor
  · rw [extend_end2end_eq_finish E A score fuel s1 hs1 m hm, ← hm1, hterm, hsnd]
    simp only [extend_finish]
    by_cases hh : A.heuristic_none = true
    · simp [hh]
    · by_cases hc : (E.heuristic_cutoff s1 m1).2 = true
      · simp [hh, hc]
      · simp [hh, hc]
  · rw [hm1]
    by_cases hnt : E.num_threads m.lo m.hi = 1
    · rw [if_pos hnt]
      rfl
    · rw [if_neg hnt]
      exact foldl_packed_end2end_keeps_kend A s1 fuel E _ m.lo m.hi _ m

/-- Witness for `end2end_heuristic_interplay`: the concrete aligner
with a configured heuristic whose hook reports a drop, on a
non-terminal (all-NULL) wavefront. -/
theorem end2end_heuristic_interplay_witness :
    (wavefront_extend_end2end exExternals exAlignerH 0 1).1 = true ∧
    (wavefront_extend_end2end exExternals exAlignerH 0 1).2.status =
      wf_status.heuristically_dropped :=
  have h := end2end_heuristic_interplay exExternals exAlignerH 0 1 0 rfl
    exWavefront (by rfl)
    (wavefront_extend_matches_packed_end2end exAlignerH exWavefront 0 0 0 1)
    (by rfl) (by decide)
  ⟨by rw [h.1]; rfl, by rw [h.1]; rfl⟩

/-- C5: in `wavefront_extend_custom`, when the active alignment form
is not ends-free, the per-diagonal ends-free check never fires (the
custom driver with the flag cleared returns false and preserves
`k_alignment_end`), and the global end-to-end termination check
performed after the extension determines exactly whether the call
reports terminal with status successful. -/
theorem custom_nonendsfree_global_check
    (E : extend_externals) (A : wavefront_aligner_t) (score : Int) (fuel : Nat)
    (hspan : A.span_endsfree = false)
    (s1 : Int)
    (hs1 : s1 = if A.memory_modular then Int.tmod score A.max_score_scope else score)
    (m : wavefront_t) (hm : A.mwavefronts s1 = some m)
    (r : Bool × wavefront_t)
    (hr : r = if E.num_threads m.lo m.hi = 1
      then wavefront_extend_matches_custom A m s1 m.lo m.hi false fuel
      else (List.range (E.num_threads m.lo m.hi)).foldl
        (fun (acc : Bool × wavefront_t) w =>
          let tl := E.thread_limits w (E.num_threads m.lo m.hi) m.lo m.hi
          let rr := wavefront_extend_matches_custom A acc.2 s1 tl.1 tl.2 false fuel
          (acc.1 || rr.1, rr.2)) (false, m))
    (m0 : wavefront_t) (s lo hi : Int) :
    ((wavefront_extend_matches_custom A m0 s lo hi false fuel).1 = false ∧
      (wavefront_extend_matches_custom A m0 s lo hi false fuel).2.k_alignment_end =
        m0.k_alignment_end) ∧
    (((wavefront_extend_custom E A score fuel).1 = true ∧
        (wavefront_extend_custom E A score fuel).2.status = wf_status.successful) ↔
      (wavefront_extend_end2end_check_termination A r.2).1 = true) := by
  constructor
  · exact ⟨(custom_loop_nonendsfree A fuel _ _ _).1,
      (custom_loop_nonendsfree A fuel _ _ _).2.1⟩
  · rw [extend_custom_eq_finish E A score fuel s1 hs1 m hm r (by rw [hr, hspan])]
    rw [if_neg (by rw [hspan]; exact Bool.false_ne_true)]
    simp only [extend_finish]
    by_cases hchk : (wavefront_extend_end2end_check_termination A r.2).1 = true
    · rw [if_pos hchk]
      simp [hchk]
    · rw [if_neg hchk]
      simp only [Bool.not_eq_true] at hchk
      rw [hchk]
      by_cases hh : A.heuristic_none = true
      · rw [if_pos hh]
        simp
      · rw [if_neg hh]
        by_cases hc : (E.heuristic_cutoff s1
            (wavefront_extend_end2end_check_termination A r.2).2).2 = true
        · rw [if_pos hc]
          simp
        · rw [if_neg hc]
          simp

/-- Witness for `custom_nonendsfree_global_check`: a non-ends-free
aligner holding the all-NULL wavefront at score 0. -/
theorem custom_nonendsfree_global_check_witness :
    ((wavefront_extend_matches_custom exAlignerW exWavefront 0 0 0 false 1).1 = false ∧
      (wavefront_extend_matches_custom exAlignerW exWavefront 0 0 0 false 1).2.k_alignment_end =
        exWavefront.k_alignment_end) ∧
    (((wavefront_extend_custom exExternals exAlignerW 0 1).1 = true ∧
        (wavefront_extend_custom exExternals exAlignerW 0 1).2.status = wf_status.successful) ↔
      (wavefront_extend_end2end_check_termination exAlignerW
        (wavefront_extend_matches_custom exAlignerW exWavefront 0 0 0 false 1).2).1 = true) :=
  custom_nonendsfree_global_check exExternals exAlignerW 0 1 rfl 0 rfl
    exWavefront (by rfl)
    (wavefront_extend_matches_custom exAlignerW exWavefront 0 0 0 false 1)
    (by rfl)
    exWavefront 0 0 0

/-- Witness for `endsfree_check_termination_correct`: the concrete
`T = 10`, `P = 7`, allowance-3 aligner. -/
theorem endsfree_check_termination_correct_witness :
    (wavefront_extend_endsfree_check_termination exAlignerEF exWavefront 10 3).1 = true ∧
    (wavefront_extend_endsfree_check_termination exAlignerEF exWavefront 10 4).1 = true ∧
    (wavefront_extend_endsfree_check_termination exAlignerEF exWavefront 10 7).1 = false :=
  (endsfree_check_termination_correct exAlignerEF exWavefront 10 3).2 exAlignerEF rfl rfl rfl

/-! ### Helper lemmas for parallel determinism (C4) -/

/-- Extensionality for wavefronts. -/
theorem wavefront_t_ext (a b : wavefront_t) (h1 : a.lo = b.lo) (h2 : a.hi = b.hi)
    (h3 : ∀ k, a.offsets k = b.offsets k) (h4 : a.k_alignment_end = b.k_alignment_end) :
    a = b := by
  have h3' : a.offsets = b.offsets := funext h3
  cases a; cases b
  simp_all

/-- Pointwise offsets of the end-to-end driver (driver-level form of
the loop specification). -/
theorem packed_end2end_driver_offsets (A : wavefront_aligner_t) (m : wavefront_t)
    (score lo hi : Int) (fuel : Nat) (k : Int) :
    (wavefront_extend_matches_packed_end2end A m score lo hi fuel).offsets k =
      if lo ≤ k ∧ k ≤ hi ∧ m.offsets k ≠ WAVEFRONT_OFFSET_NULL
      then wavefront_extend_matches_packed_kernel A k (m.offsets k) fuel
      else m.offsets k := by
  show packed_end2end_loop A fuel (hi + 1 - lo).toNat lo m.offsets k = _
  rw [packed_end2end_loop_spec]
  by_cases hin : lo ≤ k ∧ k ≤ hi ∧ m.offsets k ≠ WAVEFRONT_OFFSET_NULL
  · rw [if_pos ⟨hin.1, by omega, hin.2.2⟩, if_pos hin]
  · rw [if_neg (by rintro ⟨a, b, c⟩; exact hin ⟨a, by omega, c⟩), if_neg hin]

/-- The verdict of the ends-free check does not depend on the
wavefront argument. -/
theorem endsfree_check_fst_congr (A : wavefront_aligner_t) (m m' : wavefront_t)
    (offset k : Int) :
    (wavefront_extend_endsfree_check_termination A m offset k).1 =
      (wavefront_extend_endsfree_check_termination A m' offset k).1 := by
  simp only [wavefront_extend_endsfree_check_termination]
  split_ifs <;> rfl

/-- The ends-free check never changes the offsets or the range of the
wavefront. -/
theorem endsfree_check_snd_offsets (A : wavefront_aligner_t) (m : wavefront_t)
    (offset k : Int) :
    (wavefront_extend_endsfree_check_termination A m offset k).2.offsets = m.offsets ∧
    (wavefront_extend_endsfree_check_termination A m offset k).2.lo = m.lo ∧
    (wavefront_extend_endsfree_check_termination A m offset k).2.hi = m.hi := by
  simp only [wavefront_extend_endsfree_check_termination]
  split_ifs <;> exact ⟨rfl, rfl, rfl⟩

/-- The ends-free check leaves the wavefront unchanged on a negative
verdict. -/
theorem endsfree_check_false_snd (A : wavefront_aligner_t) (m : wavefront_t)
    (offset k : Int)
    (h : (wavefront_extend_endsfree_check_termination A m offset k).1 = false) :
    (wavefront_extend_endsfree_check_termination A m offset k).2 = m := by
  simp only [wavefront_extend_endsfree_check_termination] at h ⊢
  split_ifs at h ⊢ <;> simp_all

/-- The ends-free driver loop only writes offsets inside its range. -/
theorem packed_endsfree_loop_outside (A : wavefront_aligner_t) (fuel : Nat) :
    ∀ (cnt : Nat) (k : Int) (m : wavefront_t) (j : Int),
      (j < k ∨ k + cnt ≤ j) →
      (packed_endsfree_loop A fuel cnt k m).2.offsets j = m.offsets j := by
  intro cnt
  induction cnt with
  | zero => intro k m j hj; rfl
  | succ cnt ih =>
    intro k m j hj
    have hjk : j ≠ k := by omega
    have hj' : j < k + 1 ∨ (k + 1) + (cnt : Int) ≤ j := by omega
    simp only [packed_endsfree_loop]
    by_cases hnull : m.offsets k = WAVEFRONT_OFFSET_NULL
    · rw [if_pos hnull]
      exact ih (k + 1) m j hj'
    · rw [if_neg hnull]
      by_cases hr : (wavefront_extend_endsfree_check_termination A
          { m with offsets := fun j' => if j' = k then
              wavefront_extend_matches_packed_kernel A k (m.offsets k) fuel
            else m.offsets j' }
          (wavefront_extend_matches_packed_kernel A k (m.offsets k) fuel) k).1 = true
      · rw [if_pos hr]
        show (wavefront_extend_endsfree_check_termination A _ _ k).2.offsets j = m.offsets j
        rw [(endsfree_check_snd_offsets A _ _ k).1]
        simp only [if_neg hjk]
      · rw [if_neg hr]
        rw [endsfree_check_false_snd A _ _ k (by simpa using hr)]
        rw [ih (k + 1) _ j hj']
        simp only [if_neg hjk]

/-- Empty cover. -/
theorem isRangeCover_nil (lo hi : Int) (h : isRangeCover lo [] hi = true) :
    hi = lo - 1 := by
  simpa [isRangeCover] using h

/-- Head and tail of a non-empty cover. -/
theorem isRangeCover_cons (lo hi : Int) (p : Int × Int) (rest : List (Int × Int))
    (h : isRangeCover lo (p :: rest) hi = true) :
    p.1 = lo ∧ lo - 1 ≤ p.2 ∧ isRangeCover (p.2 + 1) rest hi = true := by
  simp only [isRangeCover, Bool.and_eq_true, decide_eq_true_eq] at h
  exact ⟨h.1.1, h.1.2, h.2⟩

/-- A cover of `[lo,hi]` requires `lo - 1 ≤ hi`. -/
theorem isRangeCover_le :
    ∀ (pieces : List (Int × Int)) (lo hi : Int),
      isRangeCover lo pieces hi = true → lo - 1 ≤ hi := by
  intro pieces
  induction pieces with
  | nil =>
    intro lo hi h
    have := isRangeCover_nil lo hi h
    omega
  | cons p rest ih =>
    intro lo hi h
    obtain ⟨h1, h2, h3⟩ := isRangeCover_cons lo hi p rest h
    have := ih (p.2 + 1) hi h3
    omega

/-- A terminal diagonal is determined by the offsets value alone. -/
theorem endsfree_hits_congr (A : wavefront_aligner_t) (fuel : Nat)
    (m m' : wavefront_t) (j : Int) (hoff : m.offsets j = m'.offsets j) :
    endsfree_hits A fuel m j ↔ endsfree_hits A fuel m' j := by
  unfold endsfree_hits
  rw [hoff]
  constructor
  · rintro ⟨h1, h2⟩
    exact ⟨h1, by rw [← endsfree_check_fst_congr A m m']; exact h2⟩
  · rintro ⟨h1, h2⟩
    exact ⟨h1, by rw [endsfree_check_fst_congr A m m']; exact h2⟩

/-- The ends-free driver loop's verdict is exactly the existence of a
terminal diagonal in its range. -/
theorem packed_endsfree_loop_verdict (A : wavefront_aligner_t) (fuel : Nat) :
    ∀ (cnt : Nat) (k : Int) (m : wavefront_t),
      ((packed_endsfree_loop A fuel cnt k m).1 = true ↔
        ∃ j, k ≤ j ∧ j < k + cnt ∧ endsfree_hits A fuel m j) := by
  intro cnt
  induction cnt with
  | zero =>
    intro k m
    constructor
    · intro h
      exact absurd h (by simp [packed_endsfree_loop])
    · rintro ⟨j, h1, h2, -⟩
      exfalso
      omega
  | succ cnt ih =>
    intro k m
    simp only [packed_endsfree_loop]
    by_cases hnull : m.offsets k = WAVEFRONT_OFFSET_NULL
    · rw [if_pos hnull, ih (k + 1) m]
      constructor
      · rintro ⟨j, h1, h2, hj⟩
        exact ⟨j, by omega, by omega, hj⟩
      · rintro ⟨j, h1, h2, hj⟩
        refine ⟨j, ?_, by omega, hj⟩
        rcases eq_or_lt_of_le h1 with he | hl
        · exact absurd (he ▸ hnull) hj.1
        · omega
    · rw [if_neg hnull]
      have hfst : (wavefront_extend_endsfree_check_termination A
          { m with offsets := fun j' => if j' = k then
              wavefront_extend_matches_packed_kernel A k (m.offsets k) fuel
            else m.offsets j' }
          (wavefront_extend_matches_packed_kernel A k (m.offsets k) fuel) k).1 =
        (wavefront_extend_endsfree_check_termination A m
          (wavefront_extend_matches_packed_kernel A k (m.offsets k) fuel) k).1 :=
        endsfree_check_fst_congr A _ m _ k
      by_cases hr : (wavefront_extend_endsfree_check_termination A m
          (wavefront_extend_matches_packed_kernel A k (m.offsets k) fuel) k).1 = true
      · rw [if_pos (by rw [hfst]; exact hr)]
        constructor
        · intro _
          exact ⟨k, le_refl _, by omega, hnull, hr⟩
        · intro _
          rfl
      · rw [if_neg (by rw [hfst]; simpa using hr)]
        rw [endsfree_check_false_snd A _ _ k (by rw [hfst]; simpa using hr)]
        rw [ih (k + 1) _]
        constructor
        · rintro ⟨j, h1, h2, hj⟩
          have hjk : j ≠ k := by omega
          refine ⟨j, by omega, by omega, ?_⟩
          rw [← endsfree_hits_congr A fuel
            { m with offsets := fun j' => if j' = k then
                wavefront_extend_matches_packed_kernel A k (m.offsets k) fuel
              else m.offsets j' } m j (by simp [hjk])]
          exact hj
        · rintro ⟨j, h1, h2, hj⟩
          by_cases hjk : j = k
          · subst hjk
            exact absurd hj.2 hr
          · refine ⟨j, by omega, by omega, ?_⟩
            rw [endsfree_hits_congr A fuel
              { m with offsets := fun j' => if j' = k then
                  wavefront_extend_matches_packed_kernel A k (m.offsets k) fuel
                else m.offsets j' } m j (by simp [hjk])]
            exact hj

/-- Driver-level verdict characterization for the ends-free driver. -/
theorem packed_endsfree_driver_verdict (A : wavefront_aligner_t) (m : wavefront_t)
    (score lo hi : Int) (fuel : Nat) :
    ((wavefront_extend_matches_packed_endsfree A m score lo hi fuel).1 = true ↔
      ∃ j, lo ≤ j ∧ j ≤ hi ∧ endsfree_hits A fuel m j) := by
  show ((packed_endsfree_loop A fuel (hi + 1 - lo).toNat lo m).1 = true ↔ _)
  rw [packed_endsfree_loop_verdict]
  constructor
  · rintro ⟨j, h1, h2, hj⟩
    exact ⟨j, h1, by omega, hj⟩
  · rintro ⟨j, h1, h2, hj⟩
    exact ⟨j, h1, by omega, hj⟩

/-- The ends-free driver only writes offsets inside `[lo,hi]`. -/
theorem packed_endsfree_driver_outside (A : wavefront_aligner_t) (m : wavefront_t)
    (score lo hi : Int) (fuel : Nat) (j : Int) (hj : j < lo ∨ hi < j) :
    (wavefront_extend_matches_packed_endsfree A m score lo hi fuel).2.offsets j =
      m.offsets j := by
  show (packed_endsfree_loop A fuel (hi + 1 - lo).toNat lo m).2.offsets j = _
  apply packed_endsfree_loop_outside
  omega

/-- The N-worker end-to-end run over any partition of `[lo,hi]`
produces exactly the single-worker wavefront. -/
theorem packed_end2end_parallel_eq (A : wavefront_aligner_t) (score : Int) (fuel : Nat) :
    ∀ (pieces : List (Int × Int)) (lo hi : Int) (m : wavefront_t),
      isRangeCover lo pieces hi = true →
      packed_end2end_parallel A score fuel pieces m =
        wavefront_extend_matches_packed_end2end A m score lo hi fuel := by
  intro pieces
  induction pieces with
  | nil =>
    intro lo hi m hcov
    have hnil := isRangeCover_nil lo hi hcov
    subst hnil
    apply wavefront_t_ext
    · rfl
    · rfl
    · intro k
      show m.offsets k = _
      rw [packed_end2end_driver_offsets]
      rw [if_neg (by rintro ⟨a, b, -⟩; omega)]
    · rfl
  | cons p rest ih =>
    intro lo hi m hcov
    obtain ⟨hp1, hp2, hrest⟩ := isRangeCover_cons lo hi p rest hcov
    have hmidhi : p.2 ≤ hi := by
      have := isRangeCover_le rest (p.2 + 1) hi hrest
      omega
    show packed_end2end_parallel A score fuel rest
        (wavefront_extend_matches_packed_end2end A m score p.1 p.2 fuel) = _
    rw [ih (p.2 + 1) hi _ hrest]
    apply wavefront_t_ext
    · rfl
    · rfl
    · intro k
      rw [packed_end2end_driver_offsets A
          (wavefront_extend_matches_packed_end2end A m score p.1 p.2 fuel)
          score (p.2 + 1) hi fuel k,
        packed_end2end_driver_offsets A m score p.1 p.2 fuel k,
        packed_end2end_driver_offsets A m score lo hi fuel k]
      by_cases hC1 : p.1 ≤ k ∧ k ≤ p.2 ∧ m.offsets k ≠ WAVEFRONT_OFFSET_NULL
      · rw [if_pos hC1, if_neg (by rintro ⟨ha, -, -⟩; omega),
          if_pos ⟨by omega, by omega, hC1.2.2⟩]
      · rw [if_neg hC1]
        by_cases hC2 : p.2 + 1 ≤ k ∧ k ≤ hi ∧ m.offsets k ≠ WAVEFRONT_OFFSET_NULL
        · rw [if_pos hC2, if_pos ⟨by omega, hC2.2.1, hC2.2.2⟩]
        · rw [if_neg hC2, if_neg (by
            rintro ⟨ha, hb, hc⟩
            by_cases hk : k ≤ p.2
            · exact hC1 ⟨by omega, hk, hc⟩
            · exact hC2 ⟨by omega, hb, hc⟩)]
    · rfl

/-- The N-worker ends-free run over any partition of `[lo,hi]` has
verdict true exactly when some diagonal of `[lo,hi]` is terminal
(the OR of the workers' verdicts). -/
theorem packed_endsfree_parallel_verdict (A : wavefront_aligner_t) (score : Int)
    (fuel : Nat) :
    ∀ (pieces : List (Int × Int)) (lo hi : Int) (b : Bool) (m : wavefront_t),
      isRangeCover lo pieces hi = true →
      ((packed_endsfree_parallel A score fuel pieces (b, m)).1 = true ↔
        (b = true ∨ ∃ j, lo ≤ j ∧ j ≤ hi ∧ endsfree_hits A fuel m j)) := by
  intro pieces
  induction pieces with
  | nil =>
    intro lo hi b m hcov
    have hnil := isRangeCover_nil lo hi hcov
    show (b = true ↔ _)
    constructor
    · exact Or.inl
    · rintro (hb | ⟨j, h1, h2, -⟩)
      · exact hb
      · exfalso
        omega
  | cons p rest ih =>
    intro lo hi b m hcov
    obtain ⟨hp1, hp2, hrest⟩ := isRangeCover_cons lo hi p rest hcov
    have hmidhi : p.2 ≤ hi := by
      have := isRangeCover_le rest (p.2 + 1) hi hrest
      omega
    show ((packed_endsfree_parallel A score fuel rest
      (b || (wavefront_extend_matches_packed_endsfree A m score p.1 p.2 fuel).1,
       (wavefront_extend_matches_packed_endsfree A m score p.1 p.2 fuel).2)).1 = true ↔ _)
    rw [ih (p.2 + 1) hi _ _ hrest]
    constructor
    · rintro (hb | ⟨j, h1, h2, hj⟩)
      · rcases Bool.or_eq_true_iff.mp hb with hb' | hr'
        · exact Or.inl hb'
        · right
          obtain ⟨j, h1, h2, hj⟩ :=
            (packed_endsfree_driver_verdict A m score p.1 p.2 fuel).mp hr'
          exact ⟨j, by omega, by omega, hj⟩
      · right
        refine ⟨j, by omega, h2, ?_⟩
        exact (endsfree_hits_congr A fuel
          (wavefront_extend_matches_packed_endsfree A m score p.1 p.2 fuel).2 m j
          (packed_endsfree_driver_outside A m score p.1 p.2 fuel j (Or.inr (by omega)))).mp hj
    · rintro (hb | ⟨j, h1, h2, hj⟩)
      · exact Or.inl (Bool.or_eq_true_iff.mpr (Or.inl hb))
      · by_cases hjmid : j ≤ p.2
        · left
          apply Bool.or_eq_true_iff.mpr
          right
          apply (packed_endsfree_driver_verdict A m score p.1 p.2 fuel).mpr
          exact ⟨j, by omega, hjmid, hj⟩
        · right
          refine ⟨j, by omega, h2, ?_⟩
          exact (endsfree_hits_congr A fuel
            (wavefront_extend_matches_packed_endsfree A m score p.1 p.2 fuel).2 m j
            (packed_endsfree_driver_outside A m score p.1 p.2 fuel j
              (Or.inr (by omega)))).mpr hj

/-- A custom-kernel terminal diagonal is determined by the offsets
value alone. -/
theorem custom_hits_congr (A : wavefront_aligner_t) (fuel : Nat)
    (m m' : wavefront_t) (j : Int) (hoff : m.offsets j = m'.offsets j) :
    custom_hits A fuel m j ↔ custom_hits A fuel m' j := by
  unfold custom_hits
  rw [hoff]
  constructor
  · rintro ⟨h1, h2⟩
    exact ⟨h1, by rw [← endsfree_check_fst_congr A m m']; exact h2⟩
  · rintro ⟨h1, h2⟩
    exact ⟨h1, by rw [endsfree_check_fst_congr A m m']; exact h2⟩

/-- The custom loop only writes offsets inside its range (either
flag value). -/
theorem custom_loop_outside (A : wavefront_aligner_t) (fuel : Nat) (ef : Bool) :
    ∀ (cnt : Nat) (k : Int) (m : wavefront_t) (j : Int),
      (j < k ∨ k + cnt ≤ j) →
      (custom_loop A fuel ef cnt k m).2.offsets j = m.offsets j := by
  intro cnt
  induction cnt with
  | zero => intro k m j hj; rfl
  | succ cnt ih =>
    intro k m j hj
    have hjk : j ≠ k := by omega
    have hj' : j < k + 1 ∨ (k + 1) + (cnt : Int) ≤ j := by omega
    simp only [custom_loop]
    by_cases hnull : m.offsets k = WAVEFRONT_OFFSET_NULL
    · rw [if_pos hnull]
      exact ih (k + 1) m j hj'
    · rw [if_neg hnull]
      by_cases hef : ef = true
      · rw [if_pos hef]
        by_cases hr : (wavefront_extend_endsfree_check_termination A
            { m with offsets := fun j' => if j' = k then
                m.offsets k + (custom_match_count A.match_funct fuel
                  (WAVEFRONT_V k (m.offsets k)) (WAVEFRONT_H k (m.offsets k)) : Int)
              else m.offsets j' }
            (m.offsets k + (custom_match_count A.match_funct fuel
              (WAVEFRONT_V k (m.offsets k)) (WAVEFRONT_H k (m.offsets k)) : Int)) k).1 = true
        · rw [if_pos hr]
          show (wavefront_extend_endsfree_check_termination A _ _ k).2.offsets j = m.offsets j
          rw [(endsfree_check_snd_offsets A _ _ k).1]
          simp only [if_neg hjk]
        · rw [if_neg hr]
          rw [endsfree_check_false_snd A _ _ k (by simpa using hr)]
          rw [ih (k + 1) _ j hj']
          simp only [if_neg hjk]
      · rw [if_neg hef]
        rw [ih (k + 1) _ j hj']
        simp only [if_neg hjk]

/-- The custom loop's verdict with the ends-free flag set is exactly
the existence of a terminal diagonal in its range. -/
theorem custom_loop_verdict (A : wavefront_aligner_t) (fuel : Nat) :
    ∀ (cnt : Nat) (k : Int) (m : wavefront_t),
      ((custom_loop A fuel true cnt k m).1 = true ↔
        ∃ j, k ≤ j ∧ j < k + cnt ∧ custom_hits A fuel m j) := by
  intro cnt
  induction cnt with
  | zero =>
    intro k m
    constructor
    · intro h
      exact absurd h (by simp [custom_loop])
    · rintro ⟨j, h1, h2, -⟩
      exfalso
      omega
  | succ cnt ih =>
    intro k m
    simp only [custom_loop]
    by_cases hnull : m.offsets k = WAVEFRONT_OFFSET_NULL
    · rw [if_pos hnull, ih (k + 1) m]
      constructor
      · rintro ⟨j, h1, h2, hj⟩
        exact ⟨j, by omega, by omega, hj⟩
      · rintro ⟨j, h1, h2, hj⟩
        refine ⟨j, ?_, by omega, hj⟩
        rcases eq_or_lt_of_le h1 with he | hl
        · exact absurd (he ▸ hnull) hj.1
        · omega
    · rw [if_neg hnull, if_pos trivial]
      have hfst : (wavefront_extend_endsfree_check_termination A
          { m with offsets := fun j' => if j' = k then
              m.offsets k + (custom_match_count A.match_funct fuel
                (WAVEFRONT_V k (m.offsets k)) (WAVEFRONT_H k (m.offsets k)) : Int)
            else m.offsets j' }
          (m.offsets k + (custom_match_count A.match_funct fuel
            (WAVEFRONT_V k (m.offsets k)) (WAVEFRONT_H k (m.offsets k)) : Int)) k).1 =
        (wavefront_extend_endsfree_check_termination A m
          (m.offsets k + (custom_match_count A.match_funct fuel
            (WAVEFRONT_V k (m.offsets k)) (WAVEFRONT_H k (m.offsets k)) : Int)) k).1 :=
        endsfree_check_fst_congr A _ m _ k
      by_cases hr : (wavefront_extend_endsfree_check_termination A m
          (m.offsets k + (custom_match_count A.match_funct fuel
            (WAVEFRONT_V k (m.offsets k)) (WAVEFRONT_H k (m.offsets k)) : Int)) k).1 = true
      · rw [if_pos (by rw [hfst]; exact hr)]
        constructor
        · intro _
          exact ⟨k, le_refl _, by omega, hnull, hr⟩
        · intro _
          rfl
      · rw [if_neg (by rw [hfst]; simpa using hr)]
        rw [endsfree_check_false_snd A _ _ k (by rw [hfst]; simpa using hr)]
        rw [ih (k + 1) _]
        constructor
        · rintro ⟨j, h1, h2, hj⟩
          have hjk : j ≠ k := by omega
          refine ⟨j, by omega, by omega, ?_⟩
          rw [← custom_hits_congr A fuel
            { m with offsets := fun j' => if j' = k then
                m.offsets k + (custom_match_count A.match_funct fuel
                  (WAVEFRONT_V k (m.offsets k)) (WAVEFRONT_H k (m.offsets k)) : Int)
              else m.offsets j' } m j (by simp [hjk])]
          exact hj
        · rintro ⟨j, h1, h2, hj⟩
          by_cases hjk : j = k
          · subst hjk
            exact absurd hj.2 hr
          · refine ⟨j, by omega, by omega, ?_⟩
            rw [custom_hits_congr A fuel
              { m with offsets := fun j' => if j' = k then
                  m.offsets k + (custom_match_count A.match_funct fuel
                    (WAVEFRONT_V k (m.offsets k)) (WAVEFRONT_H k (m.offsets k)) : Int)
                else m.offsets j' } m j (by simp [hjk])]
            exact hj

/-- Verdict of the custom driver, for either flag value. -/
theorem custom_driver_verdict (A : wavefront_aligner_t) (m : wavefront_t)
    (score lo hi : Int) (ef : Bool) (fuel : Nat) :
    ((wavefront_extend_matches_custom A m score lo hi ef fuel).1 = true ↔
      (ef = true ∧ ∃ j, lo ≤ j ∧ j ≤ hi ∧ custom_hits A fuel m j)) := by
  cases ef
  · constructor
    · intro h
      have h' : (custom_loop A fuel false (hi + 1 - lo).toNat lo m).1 = true := h
      rw [(custom_loop_nonendsfree A fuel (hi + 1 - lo).toNat lo m).1] at h'
      exact absurd h' (by simp)
    · rintro ⟨hef, -⟩
      exact absurd hef (by simp)
  · show ((custom_loop A fuel true (hi + 1 - lo).toNat lo m).1 = true ↔ _)
    rw [custom_loop_verdict]
    constructor
    · rintro ⟨j, h1, h2, hj⟩
      exact ⟨rfl, j, h1, by omega, hj⟩
    · rintro ⟨-, j, h1, h2, hj⟩
      exact ⟨j, h1, by omega, hj⟩

/-- The custom driver only writes offsets inside `[lo,hi]`. -/
theorem custom_driver_outside (A : wavefront_aligner_t) (m : wavefront_t)
    (score lo hi : Int) (ef : Bool) (fuel : Nat) (j : Int) (hj : j < lo ∨ hi < j) :
    (wavefront_extend_matches_custom A m score lo hi ef fuel).2.offsets j =
      m.offsets j := by
  show (custom_loop A fuel ef (hi + 1 - lo).toNat lo m).2.offsets j = _
  apply custom_loop_outside
  omega

/-- The N-worker custom run over any partition of `[lo,hi]` has
verdict true exactly when the flag is set and some diagonal of
`[lo,hi]` is terminal. -/
theorem custom_parallel_verdict (A : wavefront_aligner_t) (score : Int)
    (ef : Bool) (fuel : Nat) :
    ∀ (pieces : List (Int × Int)) (lo hi : Int) (b : Bool) (m : wavefront_t),
      isRangeCover lo pieces hi = true →
      ((custom_parallel A score ef fuel pieces (b, m)).1 = true ↔
        (b = true ∨ (ef = true ∧ ∃ j, lo ≤ j ∧ j ≤ hi ∧ custom_hits A fuel m j))) := by
  intro pieces
  induction pieces with
  | nil =>
    intro lo hi b m hcov
    have hnil := isRangeCover_nil lo hi hcov
    show (b = true ↔ _)
    constructor
    · exact Or.inl
    · rintro (hb | ⟨-, j, h1, h2, -⟩)
      · exact hb
      · exfalso
        omega
  | cons p rest ih =>
    intro lo hi b m hcov
    obtain ⟨hp1, hp2, hrest⟩ := isRangeCover_cons lo hi p rest hcov
    have hmidhi : p.2 ≤ hi := by
      have := isRangeCover_le rest (p.2 + 1) hi hrest
      omega
    show ((custom_parallel A score ef fuel rest
      (b || (wavefront_extend_matches_custom A m score p.1 p.2 ef fuel).1,
       (wavefront_extend_matches_custom A m score p.1 p.2 ef fuel).2)).1 = true ↔ _)
    rw [ih (p.2 + 1) hi _ _ hrest]
    constructor
    · rintro (hb | ⟨hef, j, h1, h2, hj⟩)
      · rcases Bool.or_eq_true_iff.mp hb with hb' | hr'
        · exact Or.inl hb'
        · right
          obtain ⟨hef, j, h1, h2, hj⟩ :=
            (custom_driver_verdict A m score p.1 p.2 ef fuel).mp hr'
          exact ⟨hef, j, by omega, by omega, hj⟩
      · right
        refine ⟨hef, j, by omega, h2, ?_⟩
        exact (custom_hits_congr A fuel
          (wavefront_extend_matches_custom A m score p.1 p.2 ef fuel).2 m j
          (custom_driver_outside A m score p.1 p.2 ef fuel j (Or.inr (by omega)))).mp hj
    · rintro (hb | ⟨hef, j, h1, h2, hj⟩)
      · exact Or.inl (Bool.or_eq_true_iff.mpr (Or.inl hb))
      · by_cases hjmid : j ≤ p.2
        · left
          apply Bool.or_eq_true_iff.mpr
          right
          apply (custom_driver_verdict A m score p.1 p.2 ef fuel).mpr
          exact ⟨hef, j, by omega, hjmid, hj⟩
        · right
          refine ⟨hef, j, by omega, h2, ?_⟩
          exact (custom_hits_congr A fuel
            (wavefront_extend_matches_custom A m score p.1 p.2 ef fuel).2 m j
            (custom_driver_outside A m score p.1 p.2 ef fuel j
              (Or.inr (by omega)))).mpr hj

/-! ### Claim C4: determinism under parallelism -/

/-- C4 (amended): over any valid partition of `[lo,hi]` into worker
sub-ranges, the N-worker end-to-end extension produces exactly the
single-worker wavefront (offsets, range and `k_alignment_end`), and
the N-worker ends-free and custom extensions produce exactly the
single-worker terminal verdict.  (The final offsets of the ends-free
and custom runs are not claimed equal: they genuinely differ when a
terminal diagonal is found before the end of the range — see the
counterexample.) -/
theorem extension_parallel_determinism
    (A : wavefront_aligner_t) (score : Int) (fuel : Nat)
    (lo hi : Int) (pieces : List (Int × Int))
    (hcov : isRangeCover lo pieces hi = true) (m : wavefront_t) (ef : Bool) :
    packed_end2end_parallel A score fuel pieces m =
      wavefront_extend_matches_packed_end2end A m score lo hi fuel ∧
    (packed_endsfree_parallel A score fuel pieces (false, m)).1 =
      (wavefront_extend_matches_packed_endsfree A m score lo hi fuel).1 ∧
    (custom_parallel A score ef fuel pieces (false, m)).1 =
      (wavefront_extend_matches_custom A m score lo hi ef fuel).1 := by
  refine ⟨packed_end2end_parallel_eq A score fuel pieces lo hi m hcov, ?_, ?_⟩
  · apply Bool.coe_iff_coe.mp
    rw [packed_endsfree_parallel_verdict A score fuel pieces lo hi false m hcov,
      packed_endsfree_driver_verdict A m score lo hi fuel]
    simp
  · apply Bool.coe_iff_coe.mp
    rw [custom_parallel_verdict A score ef fuel pieces lo hi false m hcov,
      custom_driver_verdict A m score lo hi ef fuel]
    simp

/-- C4 counterexample: with the valid 2-worker partition
`[(-1,0), (1,1)]` of `[-1,1]`, the ends-free extension of the concrete
wavefront yields the same terminal verdict but DIFFERENT final offsets
than the single-worker run: the single worker stops at the terminal
diagonal −1 and leaves diagonal 1 unextended (offset 1), while the
second worker extends diagonal 1 to offset 4. -/
theorem extension_parallel_offsets_cex :
    isRangeCover (-1) [(-1, 0), (1, 1)] 1 = true ∧
    (packed_endsfree_parallel exAlignerC4 0 1 [(-1, 0), (1, 1)]
        (false, exWavefrontC4)).1 =
      (wavefront_extend_matches_packed_endsfree exAlignerC4 exWavefrontC4 0 (-1) 1 1).1 ∧
    (packed_endsfree_parallel exAlignerC4 0 1 [(-1, 0), (1, 1)]
        (false, exWavefrontC4)).2.offsets 1 ≠
      (wavefront_extend_matches_packed_endsfree exAlignerC4 exWavefrontC4
        0 (-1) 1 1).2.offsets 1 := by
  decide

/-- Witness for `extension_parallel_determinism` at the concrete
2-worker partition. -/
theorem extension_parallel_determinism_witness :
    packed_end2end_parallel exAlignerC4 0 1 [(-1, 0), (1, 1)] exWavefrontC4 =
      wavefront_extend_matches_packed_end2end exAlignerC4 exWavefrontC4 0 (-1) 1 1 ∧
    (packed_endsfree_parallel exAlignerC4 0 1 [(-1, 0), (1, 1)]
        (false, exWavefrontC4)).1 =
      (wavefront_extend_matches_packed_endsfree exAlignerC4 exWavefrontC4 0 (-1) 1 1).1 ∧
    (custom_parallel exAlignerC4 0 true 1 [(-1, 0), (1, 1)] (false, exWavefrontC4)).1 =
      (wavefront_extend_matches_custom exAlignerC4 exWavefrontC4 0 (-1) 1 true 1).1 :=
  extension_parallel_determinism exAlignerC4 0 1 (-1) 1 [(-1, 0), (1, 1)] (by decide)
    exWavefrontC4 true

end WFA
